import Mathlib

/-!
A shallow embedding of the food-text extraction and nutrition-resolution core of
`src/bot.py` (NutritionBot), together with proofs about the claims of its
specification.

Modelling conventions:
* Python strings are modelled as lists of code points (`List Nat`); `enc`
  converts a Lean string literal.  The regular expressions of the source use the
  ASCII classes (`[a-zA-Z]`) or are applied to ASCII food text, so the character
  classes `\d`, `\s`, `\w` and `str.lower`/`str.upper` are modelled on their
  ASCII ranges.
* Python floats are modelled as exact rationals; `round(x, 2)` is modelled as
  exact round-half-to-even of `100 * x`, which agrees with Python on the
  magnitudes handled by the program.
* The two external collaborators of the resolution loop (the OpenRouter macro
  estimation call in `get_macros_from_ai` and the Notion persistence call in
  `add_food_to_notion`) are opaque I/O and enter the model as oracle function
  parameters; the loop additionally records the estimation calls it makes so
  that claims about collaborator invocation are statable.
-/

namespace NutritionBot

set_option maxRecDepth 100000

attribute [local semireducible] Rat.mul Rat.add Rat.sub Rat.inv Rat.ofScientific

/-- Code-point encoding of a string. -/
def enc (s : String) : List Nat := s.toList.map Char.toNat

/-- Python `str.lower` on one code point (ASCII range). -/
def lowerC (n : Nat) : Nat := if 65 ≤ n ∧ n ≤ 90 then n + 32 else n

/-- Python `str.upper` on one code point (ASCII range); also the first-character
action of `str.capitalize`. -/
def upperC (n : Nat) : Nat := if 97 ≤ n ∧ n ≤ 122 then n - 32 else n

/-- The regex class `\d` (ASCII digits). -/
def isDigitC (n : Nat) : Bool := decide (48 ≤ n ∧ n ≤ 57)

/-- The regex class `\s` (ASCII whitespace: space, TAB, LF, VT, FF, CR). -/
def isSpaceC (n : Nat) : Bool :=
  decide (n = 32 ∨ n = 9 ∨ n = 10 ∨ n = 11 ∨ n = 12 ∨ n = 13)

/-- The regex class `\w` (ASCII letters, digits and underscore); the class used
by the `\b` word boundaries of the stop-word regex. -/
def isWordC (n : Nat) : Bool :=
  decide ((48 ≤ n ∧ n ≤ 57) ∨ (65 ≤ n ∧ n ≤ 90) ∨ (97 ≤ n ∧ n ≤ 122) ∨ n = 95)

/-- The regex class `[a-zA-Z]`. -/
def isAlphaC (n : Nat) : Bool := decide ((65 ≤ n ∧ n ≤ 90) ∨ (97 ≤ n ∧ n ≤ 122))

/-- The regex class `[a-zA-Z\s]` used by the food-phrase capture groups. -/
def isPhraseC (n : Nat) : Bool := isAlphaC n || isSpaceC n

/-! ### `clean_food_name` (bot.py lines 143-153)

`re.sub(r'\d+\.?\d*\s*', '', food_name)` is implemented as a left-to-right
scanner: on reaching a digit it consumes the digit run, an optional dot with
following digits, and trailing whitespace (the regex is deterministic: every
quantifier is greedy and no backtracking can succeed).  The scanner is written
as a character-at-a-time state machine so that it is structurally recursive. -/

inductive NumSt where
  | norm | digs | frac | sps
deriving DecidableEq, Repr

/-- Scanner for `re.sub(r'\d+\.?\d*\s*', '', s)`.  State `digs`: inside `\d+`;
`frac`: after the optional dot; `sps`: inside the trailing `\s*`. -/
def stripNumbersAux : NumSt → List Nat → List Nat
  | _, [] => []
  | .norm, c :: cs =>
      if isDigitC c then stripNumbersAux .digs cs else c :: stripNumbersAux .norm cs
  | .digs, c :: cs =>
      if isDigitC c then stripNumbersAux .digs cs
      else if c = 46 then stripNumbersAux .frac cs
      else if isSpaceC c then stripNumbersAux .sps cs
      else c :: stripNumbersAux .norm cs
  | .frac, c :: cs =>
      if isDigitC c then stripNumbersAux .frac cs
      else if isSpaceC c then stripNumbersAux .sps cs
      else c :: stripNumbersAux .norm cs
  | .sps, c :: cs =>
      if isSpaceC c then stripNumbersAux .sps cs
      else if isDigitC c then stripNumbersAux .digs cs
      else c :: stripNumbersAux .norm cs

def stripNumbers (l : List Nat) : List Nat := stripNumbersAux .norm l

/-- The stop words of `re.sub(r'\b(pieces|piece|g|grams|gram|of|the|and|with)\b', ...)`. -/
def stopwords : List (List Nat) :=
  [enc "pieces", enc "piece", enc "g", enc "grams", enc "gram",
   enc "of", enc "the", enc "and", enc "with"]

/-- Case-insensitive literal match (`re.IGNORECASE`): the pattern `w` is given in
lower case and each subject character is lowered before comparison.  Returns the
rest of the subject after the match. -/
def lcMatch : List Nat → List Nat → Option (List Nat)
  | [], l => some l
  | _ :: _, [] => none
  | a :: w, c :: cs => if lowerC c = a then lcMatch w cs else none

/-- The closing `\b` of the stop-word pattern: every stop word ends in a word
character, so the boundary holds exactly when the rest is empty or starts with a
non-word character. -/
def boundaryAfter : List Nat → Bool
  | [] => true
  | c :: _ => !isWordC c

/-- Try the stop-word alternation at the current position (alternatives in the
pattern's order); a branch succeeds when the literal matches and the closing
word boundary holds.  Returns the matched word and the rest. -/
def tryStopwords : List (List Nat) → List Nat → Option (List Nat × List Nat)
  | [], _ => none
  | w :: ws, l =>
      match lcMatch w l with
      | some rest => if boundaryAfter rest then some (w, rest) else tryStopwords ws l
      | none => tryStopwords ws l

/-- Scanner for the stop-word removal.  The first argument is a skip counter for
the characters of a match still to be consumed; the `Bool` records whether the
previous character of the subject was a word character (the opening `\b` of the
pattern requires it not to be, since every stop word starts with a word
character).  After a match the scanner resumes at the match end with the flag
set (stop words end in word characters). -/
def removeStopAux : Nat → Bool → List Nat → List Nat
  | _, _, [] => []
  | k + 1, _, _ :: cs => removeStopAux k true cs
  | 0, prevWord, c :: cs =>
      if prevWord then c :: removeStopAux 0 (isWordC c) cs
      else
        match tryStopwords stopwords (c :: cs) with
        | some (w, _) => removeStopAux (w.length - 1) true cs
        | none => c :: removeStopAux 0 (isWordC c) cs

def removeStopwords (l : List Nat) : List Nat := removeStopAux 0 false l

/-- `re.sub(r'\s+', ' ', s)`: the flag records whether the single replacement
space of the current whitespace run has already been emitted. -/
def collapseSpacesAux : Bool → List Nat → List Nat
  | _, [] => []
  | inRun, c :: cs =>
      if isSpaceC c then
        if inRun then collapseSpacesAux true cs else 32 :: collapseSpacesAux true cs
      else c :: collapseSpacesAux false cs

def collapseSpaces (l : List Nat) : List Nat := collapseSpacesAux false l

/-- Python `str.strip()`: drop leading and trailing whitespace. -/
def pyStrip (l : List Nat) : List Nat :=
  ((l.dropWhile isSpaceC).reverse.dropWhile isSpaceC).reverse

/-- Python `str.split()` (no separator): maximal runs of non-whitespace
characters; the accumulator is the word currently being read. -/
def pySplitAux : List Nat → List Nat → List (List Nat)
  | acc, [] => if acc = [] then [] else [acc]
  | acc, c :: cs =>
      if isSpaceC c then
        if acc = [] then pySplitAux [] cs else acc :: pySplitAux [] cs
      else pySplitAux (acc ++ [c]) cs

def pySplit (l : List Nat) : List (List Nat) := pySplitAux [] l

/-- Python `str.capitalize()`: first character uppercased, the rest lowercased. -/
def pyCapitalize : List Nat → List Nat
  | [] => []
  | c :: cs => upperC c :: cs.map lowerC

/-- Python `' '.join(ws)`. -/
def joinSpace : List (List Nat) → List Nat
  | [] => []
  | [w] => w
  | w :: ws => w ++ 32 :: joinSpace ws

/-- Maximal runs of `\w` characters of a string (the accumulator is the run
currently being read).  A whole-word occurrence of a stop word is exactly a
maximal word run whose lowercase form is the stop word, which makes these runs
the right invariant for reasoning about the stop-word scanner. -/
def wordRunsAux : List Nat → List Nat → List (List Nat)
  | acc, [] => if acc = [] then [] else [acc]
  | acc, c :: cs =>
      if isWordC c then wordRunsAux (acc ++ [c]) cs
      else if acc = [] then wordRunsAux [] cs
      else acc :: wordRunsAux [] cs

def wordRuns (l : List Nat) : List (List Nat) := wordRunsAux [] l

/-- The word runs the stop-word scanner can still act on when the previous
character was a word character (`b = true`): the partial first run is exempt. -/
def runsFrom : Bool → List Nat → List (List Nat)
  | true, l => wordRuns (l.dropWhile isWordC)
  | false, l => wordRuns l

/-- `clean_food_name` (bot.py 143-153): strip numbers, remove stop words,
collapse and trim whitespace, then capitalize each word. -/
def clean_food_name (s : List Nat) : List Nat :=
  joinSpace (((pySplit (pyStrip (collapseSpaces (removeStopwords (stripNumbers s))))).map
    pyCapitalize))

/-- The word transformation the specification claims for step 4 of
`clean_food_name`: first letter uppercased, remaining letters left unchanged. -/
def capitalizeClaimed : List Nat → List Nat
  | [] => []
  | c :: cs => upperC c :: cs

/-- The cleaning algorithm exactly as the specification words it (strip numeric
tokens; remove stop words; single-space and trim; title-case each word leaving
the case of the remaining letters unchanged).  Steps 3 and 4 are expressed
directly as split-and-rejoin. -/
def cleanClaimed (s : List Nat) : List Nat :=
  joinSpace (((pySplit (removeStopwords (stripNumbers s))).map capitalizeClaimed))

/-- The cleaning algorithm as the specification words it, with step 4 amended to
what `str.capitalize` does (remaining letters lowercased). -/
def cleanAmended (s : List Nat) : List Nat :=
  joinSpace (((pySplit (removeStopwords (stripNumbers s))).map pyCapitalize))

/-! ### `parse_food_text` (bot.py 155-225) -/

/-- Value of a `\d+` capture (`float(match.group(1))` with an integer group). -/
def digitsVal (ds : List Nat) : Nat := ds.foldl (fun a d => a * 10 + (d - 48)) 0

/-- Try pattern 1, `(\d+)\s*g\s*([a-zA-Z][a-zA-Z\s]*)`, anchored at the head of
`l`.  All quantifiers are greedy and no backtracking can succeed, so the match
is computed by direct scanning.  Returns `(group1, group2)` and the rest of the
subject after the match. -/
def matchP1 (l : List Nat) : Option ((List Nat × List Nat) × List Nat) :=
  let ds := l.takeWhile isDigitC
  let r1 := l.dropWhile isDigitC
  if ds = [] then none
  else
    match r1.dropWhile isSpaceC with
    | c :: r3 =>
        if c = 103 then
          match r3.dropWhile isSpaceC with
          | a :: r5 =>
              if isAlphaC a then
                some ((ds, a :: r5.takeWhile isPhraseC), r5.dropWhile isPhraseC)
              else none
          | [] => none
        else none
    | [] => none

/-- Try pattern 2, `(\d+)\s+([a-zA-Z][a-zA-Z\s]*)`, anchored at the head of `l`. -/
def matchP2 (l : List Nat) : Option ((List Nat × List Nat) × List Nat) :=
  let ds := l.takeWhile isDigitC
  let r1 := l.dropWhile isDigitC
  if ds = [] then none
  else
    if r1.takeWhile isSpaceC = [] then none
    else
      match r1.dropWhile isSpaceC with
      | a :: r3 =>
          if isAlphaC a then
            some ((ds, a :: r3.takeWhile isPhraseC), r3.dropWhile isPhraseC)
          else none
      | [] => none

/-- The volume units of pattern 3, in the pattern's alternation order. -/
def unitStrings : List (List Nat) :=
  [enc "tbsp", enc "tsp", enc "tablespoon", enc "teaspoon"]

/-- Literal prefix match. -/
def dropLit : List Nat → List Nat → Option (List Nat)
  | [], l => some l
  | _ :: _, [] => none
  | a :: w, c :: cs => if c = a then dropLit w cs else none

/-- The unit alternation `(tbsp|tsp|tablespoon|teaspoon)`.  The four literals
pairwise differ within their first two characters, so at most one can match at
a given position and trying them in order needs no backtracking. -/
def matchUnit : List (List Nat) → List Nat → Option (List Nat × List Nat)
  | [], _ => none
  | u :: us, l =>
      match dropLit u l with
      | some rest => some (u, rest)
      | none => matchUnit us l

/-- Try pattern 3, `(\d+)\s*(tbsp|tsp|tablespoon|teaspoon)\s+([a-zA-Z\s]+)`,
anchored at the head of `l`.  If the character after the greedy `\s+` is not a
letter, the engine backtracks one whitespace character, which then forms the
whole of group 3 (possible only when the run has at least two characters).
Returns `(group1, unit, group3)` and the rest after the match. -/
def matchP3 (l : List Nat) : Option ((List Nat × List Nat × List Nat) × List Nat) :=
  let ds := l.takeWhile isDigitC
  let r1 := l.dropWhile isDigitC
  if ds = [] then none
  else
    match matchUnit unitStrings (r1.dropWhile isSpaceC) with
    | none => none
    | some (u, r3) =>
        let sp := r3.takeWhile isSpaceC
        match r3.dropWhile isSpaceC with
        | a :: r5 =>
            if isAlphaC a then
              if sp = [] then none
              else some ((ds, u, a :: r5.takeWhile isPhraseC), r5.dropWhile isPhraseC)
            else if 2 ≤ sp.length then some ((ds, u, [sp.getLast!]), r3.dropWhile isSpaceC)
            else none
        | [] =>
            if 2 ≤ sp.length then some ((ds, u, [sp.getLast!]), ([] : List Nat))
            else none

/-- `re.finditer` driver for pattern 1: scan left to right; after a match resume
at the match end (the skip counter counts the still-to-skip characters of the
current match), otherwise advance one character. -/
def finditer1Aux : Nat → List Nat → List (List Nat × List Nat)
  | _, [] => []
  | k + 1, _ :: cs => finditer1Aux k cs
  | 0, c :: cs =>
      match matchP1 (c :: cs) with
      | some (m, rest) => m :: finditer1Aux ((c :: cs).length - rest.length - 1) cs
      | none => finditer1Aux 0 cs

def finditer1 (l : List Nat) : List (List Nat × List Nat) := finditer1Aux 0 l

def finditer2Aux : Nat → List Nat → List (List Nat × List Nat)
  | _, [] => []
  | k + 1, _ :: cs => finditer2Aux k cs
  | 0, c :: cs =>
      match matchP2 (c :: cs) with
      | some (m, rest) => m :: finditer2Aux ((c :: cs).length - rest.length - 1) cs
      | none => finditer2Aux 0 cs

def finditer2 (l : List Nat) : List (List Nat × List Nat) := finditer2Aux 0 l

def finditer3Aux : Nat → List Nat → List ((List Nat × List Nat × List Nat))
  | _, [] => []
  | k + 1, _ :: cs => finditer3Aux k cs
  | 0, c :: cs =>
      match matchP3 (c :: cs) with
      | some (m, rest) => m :: finditer3Aux ((c :: cs).length - rest.length - 1) cs
      | none => finditer3Aux 0 cs

def finditer3 (l : List Nat) : List ((List Nat × List Nat × List Nat)) := finditer3Aux 0 l

/-- The `standard_servings` dictionary of `parse_food_text`. -/
def standard_servings : List (List Nat × ℚ) :=
  [(enc "banana", 120), (enc "bananas", 120), (enc "apple", 182), (enc "apples", 182),
   (enc "orange", 131), (enc "oranges", 131), (enc "egg", 50), (enc "eggs", 50),
   (enc "slice bread", 28), (enc "bread", 28),
   (enc "tbsp oil", 14), (enc "tbsp olive oil", 14), (enc "tablespoon oil", 14),
   (enc "tsp oil", 5), (enc "teaspoon oil", 5),
   (enc "chicken breast", 100), (enc "chicken", 100),
   (enc "rice", 100), (enc "white rice", 100), (enc "brown rice", 100),
   (enc "pasta", 100), (enc "spaghetti", 100),
   (enc "ice cream", 66), (enc "vanilla ice cream", 66), (enc "icecream", 66),
   (enc "milk", 240), (enc "water", 240), (enc "coffee", 240), (enc "tea", 240)]

/-- `standard_servings.get(key, 100)`. -/
def lookupServing (k : List Nat) : ℚ :=
  match standard_servings.find? (fun p => p.1 == k) with
  | some p => p.2
  | none => 100

/-- One entry of the `potential_items`/`food_items` lists of `parse_food_text`:
the dictionary keys `food`, `serving`, `unit` and (for patterns 2 and 3)
`quantity`. -/
structure FoodItem where
  food : List Nat
  serving : ℚ
  unit : List Nat
  quantity : Option ℚ
deriving DecidableEq, Repr

/-- Pattern-1 items: serving is the gram count; skipped when the cleaned name is
empty. -/
def items1 (t : List Nat) : List FoodItem :=
  (finditer1 t).filterMap fun m =>
    if clean_food_name m.2 = [] then none
    else some ⟨clean_food_name m.2, (digitsVal m.1 : ℚ), enc "g", none⟩

/-- Pattern-2 items: serving is the standard serving of the lowercased cleaned
name (default 100) times the quantity. -/
def items2 (t : List Nat) : List FoodItem :=
  (finditer2 t).filterMap fun m =>
    if clean_food_name m.2 = [] then none
    else some ⟨clean_food_name m.2,
      lookupServing ((clean_food_name m.2).map lowerC) * (digitsVal m.1 : ℚ),
      enc "pieces", some (digitsVal m.1 : ℚ)⟩

/-- Pattern-3 items: serving is the quantity times 14 (tbsp, tablespoon) or 5
(tsp, teaspoon); the stored name is annotated with the unit only for the short
forms tbsp and tsp. -/
def items3 (t : List Nat) : List FoodItem :=
  (finditer3 t).filterMap fun m =>
    if clean_food_name m.2.2 = [] then none
    else some ⟨(if m.2.1 = enc "tbsp" ∨ m.2.1 = enc "tsp" then
        clean_food_name m.2.2 ++ enc " (" ++ m.2.1 ++ enc ")"
      else clean_food_name m.2.2),
      (digitsVal m.1 : ℚ) * (if m.2.1 = enc "tbsp" ∨ m.2.1 = enc "tablespoon" then (14 : ℚ) else 5),
      m.2.1, some (digitsVal m.1 : ℚ)⟩

/-- The dedup-and-filter loop of `parse_food_text` (bot.py 212-223): the key is
the stripped stored name; names shorter than 2 characters are dropped; the first
occurrence of a key wins and later ones are discarded. -/
def dedupAux (seen : List (List Nat)) : List FoodItem → List FoodItem
  | [] => []
  | i :: rest =>
      if (pyStrip i.food).length < 2 then dedupAux seen rest
      else if pyStrip i.food ∈ seen then dedupAux seen rest
      else i :: dedupAux (pyStrip i.food :: seen) rest

/-- `parse_food_text` (bot.py 155-225): lowercase the text, collect the matches
of the three patterns in pattern order, then filter and deduplicate. -/
def parse_food_text (text : List Nat) : List FoodItem :=
  dedupAux [] (items1 (text.map lowerC) ++ items2 (text.map lowerC) ++ items3 (text.map lowerC))

/-! ### `match_known_food` (bot.py 78-80): `difflib.get_close_matches` -/

/-- Length of the common prefix of two lists. -/
def extLen : List Nat → List Nat → Nat
  | a :: as_, b :: bs =>
      if a = b then extLen as_ bs + 1 else 0
  | _, _ => 0

/-- Scan of the blocks starting at a fixed suffix `sa` of the first sequence
(start index `i`) against every suffix of the second sequence, `j` ascending; a
block replaces the current best only when strictly longer. -/
def bestRow (sa : List Nat) (i : Nat) : List Nat → Nat → Nat × Nat × Nat → Nat × Nat × Nat
  | [], _, best => best
  | sb :: tb, j, (bi, bj, bk) =>
      let k := extLen sa (sb :: tb)
      if bk < k then bestRow sa i tb (j + 1) (i, j, k)
      else bestRow sa i tb (j + 1) (bi, bj, bk)

/-- Scan over the suffixes of the first sequence, `i` ascending. -/
def bestAll (b : List Nat) : List Nat → Nat → Nat × Nat × Nat → Nat × Nat × Nat
  | [], _, best => best
  | sa :: ta, i, best => bestAll b ta (i + 1) (bestRow (sa :: ta) i b 0 best)

/-- `SequenceMatcher.find_longest_match` (no junk for short strings): the
longest common contiguous block, ties going to the smallest start in `a`, then
the smallest start in `b` (the scan is `i` ascending, then `j` ascending, and
only a strictly longer block replaces the current best); result `(i, j, size)`,
`(0, 0, 0)` when there is no common block. -/
def bestMatch (a b : List Nat) : Nat × Nat × Nat := bestAll b a 0 (0, 0, 0)

/-- Total size of the matching blocks of `SequenceMatcher.get_matching_blocks`
(the Ratcliff-Obershelp recursion around the longest match), with fuel
`a.length + b.length`, which always suffices since each level strictly shrinks
the combined length. -/
def matchSizeF : Nat → List Nat → List Nat → Nat
  | 0, _, _ => 0
  | fuel + 1, a, b =>
      let m := bestMatch a b
      if m.2.2 = 0 then 0
      else
        matchSizeF fuel (a.take m.1) (b.take m.2.1) + m.2.2 +
          matchSizeF fuel (a.drop (m.1 + m.2.2)) (b.drop (m.2.1 + m.2.2))

def matchSize (a b : List Nat) : Nat := matchSizeF (a.length + b.length) a b

/-- `SequenceMatcher.ratio()` of `a` (sequence 1) and `b` (sequence 2). -/
def ratio (a b : List Nat) : ℚ :=
  if a.length + b.length = 0 then 1
  else 2 * (matchSize a b : ℚ) / ((a.length : ℚ) + (b.length : ℚ))

/-- Multiset-intersection size, the match count of `quick_ratio`. -/
def interCount (a b : List Nat) : Nat :=
  a.dedup.foldl (fun acc c => acc + min (a.count c) (b.count c)) 0

/-- `SequenceMatcher.quick_ratio()`. -/
def quickRatio (a b : List Nat) : ℚ :=
  if a.length + b.length = 0 then 1
  else 2 * (interCount a b : ℚ) / ((a.length : ℚ) + (b.length : ℚ))

/-- `SequenceMatcher.real_quick_ratio()`. -/
def realQuickRatio (a b : List Nat) : ℚ :=
  if a.length + b.length = 0 then 1
  else 2 * (min a.length b.length : ℚ) / ((a.length : ℚ) + (b.length : ℚ))

/-- The cutoff test of `get_close_matches` for one possibility `x` against the
word `w`. -/
def passesCutoff (x w : List Nat) (cutoff : ℚ) : Bool :=
  decide (cutoff ≤ realQuickRatio x w) && decide (cutoff ≤ quickRatio x w) &&
    decide (cutoff ≤ ratio x w)

/-- Lexicographic comparison of code-point lists (Python string `<`). -/
def listLtB : List Nat → List Nat → Bool
  | [], [] => false
  | [], _ :: _ => true
  | _ :: _, [] => false
  | a :: as_, b :: bs => if a < b then true else if b < a then false else listLtB as_ bs

/-- Python tuple comparison on `(score, string)` pairs. -/
def pairLt (p q : ℚ × List Nat) : Bool :=
  decide (p.1 < q.1) || (decide (p.1 = q.1) && listLtB p.2 q.2)

/-- `heapq.nlargest(1, result)` on `(score, string)` pairs: the maximum under
tuple comparison, earlier entries winning exact ties. -/
def nlargest1 : List (ℚ × List Nat) → Option (ℚ × List Nat)
  | [] => none
  | p :: ps => some (ps.foldl (fun best c => if pairLt best c then c else best) p)

/-- `difflib.get_close_matches(word, poss, n=1, cutoff)` returning the single
best entry if any possibility passes the cutoff. -/
def get_close_matches1 (word : List Nat) (poss : List (List Nat)) (cutoff : ℚ) :
    Option (List Nat) :=
  (nlargest1 (poss.filterMap fun x =>
    if passesCutoff x word cutoff then some (ratio x word, x) else none)).map (·.2)

/-- `match_known_food` (bot.py 78-80): lowercase the query only and fuzzy-match
it against the table keys with cutoff 0.85. -/
def match_known_food (food : List Nat) (keys : List (List Nat)) : Option (List Nat) :=
  get_close_matches1 (food.map lowerC) keys (17 / 20)

/-! ### `scale_macros` (bot.py 82-89) and the resolution loop (bot.py 268-322) -/

/-- A macro dictionary with the four keys used throughout the source. -/
structure Macros where
  Calories : ℚ
  Protein : ℚ
  Carbohydrates : ℚ
  Fats : ℚ
deriving DecidableEq, Repr

/-- Round-half-to-even to an integer (the rounding of Python `round`). -/
def roundHalfEven (q : ℚ) : ℤ :=
  if q - ⌊q⌋ < 1 / 2 then ⌊q⌋
  else if 1 / 2 < q - ⌊q⌋ then ⌊q⌋ + 1
  else if ⌊q⌋ % 2 = 0 then ⌊q⌋ else ⌊q⌋ + 1

/-- Python `round(x, 2)`. -/
def pyRound2 (q : ℚ) : ℚ := (roundHalfEven (q * 100) : ℚ) / 100

/-- `scale_macros` (bot.py 82-89): `factor = serving_size / 100`, every field
multiplied by the factor and rounded to two decimals. -/
def scale_macros (base_macros : Macros) (serving_size : ℚ) : Macros :=
  { Calories := pyRound2 (base_macros.Calories * (serving_size / 100))
    Protein := pyRound2 (base_macros.Protein * (serving_size / 100))
    Carbohydrates := pyRound2 (base_macros.Carbohydrates * (serving_size / 100))
    Fats := pyRound2 (base_macros.Fats * (serving_size / 100)) }

/-- One entry of the `successful_items` list of `free_form_input`. -/
structure SuccessItem where
  name : List Nat
  calories : ℚ
  protein : ℚ
  serving : ℚ
deriving DecidableEq, Repr

/-- The observable outcome of the resolution loop of `free_form_input`:
successes and failures in processing order, the estimation-service invocations
made (name and serving grams, in order), and the calorie total. -/
structure ResolveResult where
  successes : List SuccessItem
  failures : List (List Nat)
  aiCalls : List (List Nat × ℚ)
  total : ℚ
deriving DecidableEq, Repr

/-- `known_foods[matched]`. -/
def lookupMacros (table : List (List Nat × Macros)) (k : List Nat) : Macros :=
  match table.find? (fun p => p.1 == k) with
  | some p => p.2
  | none => ⟨0, 0, 0, 0⟩

/-- Record a successful item at the front of the result. -/
def addSuccess (s : SuccessItem) (c : ℚ) (r : ResolveResult) : ResolveResult :=
  ⟨s :: r.successes, r.failures, r.aiCalls, c + r.total⟩

/-- Record a failed item at the front of the result. -/
def addFailure (n : List Nat) (r : ResolveResult) : ResolveResult :=
  ⟨r.successes, n :: r.failures, r.aiCalls, r.total⟩

/-- Record an estimation-service invocation at the front of the result. -/
def addCall (p : List Nat × ℚ) (r : ResolveResult) : ResolveResult :=
  ⟨r.successes, r.failures, p :: r.aiCalls, r.total⟩

/-- Book a persistence attempt: success goes to `successful_items` and the
calorie total, failure to `failed_items` (bot.py 293-306). -/
def bookItem (persist : List Nat → ℚ → Macros → Bool) (i : FoodItem) (m : Macros)
    (r : ResolveResult) : ResolveResult :=
  if persist i.food i.serving m then
    addSuccess ⟨i.food, m.Calories, m.Protein, i.serving⟩ m.Calories r
  else addFailure i.food r

/-- The body of one iteration of the loop of `free_form_input` (bot.py 280-308):
reference match with estimation fallback, then the persistence attempt; an
estimation failure books the item as failed. -/
def resolveOne (table : List (List Nat × Macros)) (ai : List Nat → ℚ → Option Macros)
    (persist : List Nat → ℚ → Macros → Bool) (i : FoodItem) (r : ResolveResult) :
    ResolveResult :=
  match match_known_food i.food (table.map (·.1)) with
  | some k => bookItem persist i (scale_macros (lookupMacros table k) i.serving) r
  | none =>
      match ai i.food i.serving with
      | some m => bookItem persist i m (addCall (i.food, i.serving) r)
      | none => addFailure i.food (addCall (i.food, i.serving) r)

/-- The loop of `free_form_input` (bot.py 280-308), processed recursively in
list order.  `ai` is the estimation collaborator (`get_macros_from_ai`, `None`
on failure) and `persist` the Notion persistence collaborator
(`add_food_to_notion`). -/
def resolveItems (table : List (List Nat × Macros)) (ai : List Nat → ℚ → Option Macros)
    (persist : List Nat → ℚ → Macros → Bool) : List FoodItem → ResolveResult
  | [] => ⟨[], [], [], 0⟩
  | i :: rest => resolveOne table ai persist i (resolveItems table ai persist rest)

/-- The observable outcome of `free_form_input`: either the single
could-not-identify reply (no usable mention), or the itemized report. -/
inductive PipelineOutcome where
  | noMentions
  | results (successes : List SuccessItem) (failures : List (List Nat)) (total : ℚ)
deriving DecidableEq, Repr

/-- `free_form_input` (bot.py 268-322). -/
def free_form_input (table : List (List Nat × Macros)) (ai : List Nat → ℚ → Option Macros)
    (persist : List Nat → ℚ → Macros → Bool) (text : List Nat) : PipelineOutcome :=
  if parse_food_text text = [] then .noMentions
  else
    .results (resolveItems table ai persist (parse_food_text text)).successes
      (resolveItems table ai persist (parse_food_text text)).failures
      (resolveItems table ai persist (parse_food_text text)).total

/-! ## Helper lemmas about the deduplication stage -/

theorem mem_dedupAux {i : FoodItem} :
    ∀ {items : List FoodItem} {seen : List (List Nat)}, i ∈ dedupAux seen items → i ∈ items := by
  intro items
  induction items with
  | nil => intro seen h; simp [dedupAux] at h
  | cons j rest ih =>
      intro seen h
      simp only [dedupAux] at h
      split at h
      · exact List.mem_cons_of_mem _ (ih h)
      · split at h
        · exact List.mem_cons_of_mem _ (ih h)
        · rcases List.mem_cons.1 h with h1 | h2
          · exact h1 ▸ List.mem_cons_self _ _
          · exact List.mem_cons_of_mem _ (ih h2)

theorem dedupAux_nodup :
    ∀ (items : List FoodItem) (seen : List (List Nat)),
      (((dedupAux seen items).map fun i => pyStrip i.food)).Nodup ∧
        ∀ i ∈ dedupAux seen items, pyStrip i.food ∉ seen := by
  intro items
  induction items with
  | nil => intro seen; simp [dedupAux]
  | cons j rest ih =>
      intro seen
      simp only [dedupAux]
      split
      · exact ih seen
      · split
        · exact ih seen
        · rename_i hlen hseen
          refine ⟨List.nodup_cons.2 ⟨?_, (ih (pyStrip j.food :: seen)).1⟩, ?_⟩
          · intro hmem
            rcases List.mem_map.1 hmem with ⟨i, hi, hieq⟩
            exact (ih (pyStrip j.food :: seen)).2 i hi (hieq ▸ List.mem_cons_self _ _)
          · intro i hi
            rcases List.mem_cons.1 hi with h1 | h2
            · intro hc; exact hseen (h1 ▸ hc)
            · intro hc
              exact (ih (pyStrip j.food :: seen)).2 i h2 (List.mem_cons_of_mem _ hc)

/-! ## Helper lemmas: where parsed items come from -/

theorem mem_items1 {t : List Nat} {i : FoodItem} (h : i ∈ items1 t) :
    ∃ m, m ∈ finditer1 t ∧ clean_food_name m.2 ≠ [] ∧
      i = ⟨clean_food_name m.2, (digitsVal m.1 : ℚ), enc "g", none⟩ := by
  rcases List.mem_filterMap.1 h with ⟨m, hm, hsome⟩
  by_cases hf : clean_food_name m.2 = []
  · rw [if_pos hf] at hsome; exact absurd hsome (by simp)
  · rw [if_neg hf] at hsome
    exact ⟨m, hm, hf, (Option.some_inj.1 hsome).symm⟩

theorem mem_items2 {t : List Nat} {i : FoodItem} (h : i ∈ items2 t) :
    ∃ m, m ∈ finditer2 t ∧ clean_food_name m.2 ≠ [] ∧
      i = ⟨clean_food_name m.2,
        lookupServing ((clean_food_name m.2).map lowerC) * (digitsVal m.1 : ℚ),
        enc "pieces", some (digitsVal m.1 : ℚ)⟩ := by
  rcases List.mem_filterMap.1 h with ⟨m, hm, hsome⟩
  by_cases hf : clean_food_name m.2 = []
  · rw [if_pos hf] at hsome; exact absurd hsome (by simp)
  · rw [if_neg hf] at hsome
    exact ⟨m, hm, hf, (Option.some_inj.1 hsome).symm⟩

theorem mem_items3 {t : List Nat} {i : FoodItem} (h : i ∈ items3 t) :
    ∃ m, m ∈ finditer3 t ∧ clean_food_name m.2.2 ≠ [] ∧
      i = ⟨(if m.2.1 = enc "tbsp" ∨ m.2.1 = enc "tsp" then
          clean_food_name m.2.2 ++ enc " (" ++ m.2.1 ++ enc ")"
        else clean_food_name m.2.2),
        (digitsVal m.1 : ℚ) *
          (if m.2.1 = enc "tbsp" ∨ m.2.1 = enc "tablespoon" then (14 : ℚ) else 5),
        m.2.1, some (digitsVal m.1 : ℚ)⟩ := by
  rcases List.mem_filterMap.1 h with ⟨m, hm, hsome⟩
  by_cases hf : clean_food_name m.2.2 = []
  · rw [if_pos hf] at hsome; exact absurd hsome (by simp)
  · rw [if_neg hf] at hsome
    exact ⟨m, hm, hf, (Option.some_inj.1 hsome).symm⟩

theorem mem_parse {text : List Nat} {i : FoodItem} (h : i ∈ parse_food_text text) :
    i ∈ items1 (text.map lowerC) ∨ i ∈ items2 (text.map lowerC) ∨
      i ∈ items3 (text.map lowerC) := by
  unfold parse_food_text at h
  have hmem := mem_dedupAux h
  rcases List.mem_append.1 hmem with h12 | h3
  · rcases List.mem_append.1 h12 with h1 | h2
    · exact Or.inl h1
    · exact Or.inr (Or.inl h2)
  · exact Or.inr (Or.inr h3)

theorem lookupServing_pos (k : List Nat) : 0 < lookupServing k := by
  unfold lookupServing
  cases h : standard_servings.find? (fun p => p.1 == k) with
  | none => norm_num
  | some p =>
      have hp : p ∈ standard_servings := List.mem_of_find?_eq_some h
      have hall : ∀ q ∈ standard_servings, (0 : ℚ) < q.2 := by decide
      exact hall p hp

/-! ## Helper lemmas about the resolution loop -/

theorem resolveItems_aiCalls (table : List (List Nat × Macros))
    (ai : List Nat → ℚ → Option Macros) (persist : List Nat → ℚ → Macros → Bool) :
    ∀ items : List FoodItem,
      (resolveItems table ai persist items).aiCalls =
        (items.filter fun i => (match_known_food i.food (table.map (·.1))).isNone).map
          fun i => (i.food, i.serving) := by
  intro items
  induction items with
  | nil => rfl
  | cons i rest ih =>
      simp only [resolveItems, resolveOne]
      cases h : match_known_food i.food (table.map (·.1)) with
      | some k =>
          simp only [bookItem]
          split <;> simp [addSuccess, addFailure, ih, List.filter_cons, h]
      | none =>
          cases hai : ai i.food i.serving with
          | some m =>
              simp only [bookItem]
              split <;> simp [addSuccess, addFailure, addCall, ih, List.filter_cons, h]
          | none => simp [addFailure, addCall, ih, List.filter_cons, h]

theorem resolveItems_length (table : List (List Nat × Macros))
    (ai : List Nat → ℚ → Option Macros) (persist : List Nat → ℚ → Macros → Bool) :
    ∀ items : List FoodItem,
      (resolveItems table ai persist items).successes.length +
        (resolveItems table ai persist items).failures.length = items.length := by
  intro items
  induction items with
  | nil => rfl
  | cons i rest ih =>
      simp only [resolveItems, resolveOne]
      cases h : match_known_food i.food (table.map (·.1)) with
      | some k =>
          simp only [bookItem]
          split <;> simp [addSuccess, addFailure] <;> omega
      | none =>
          cases hai : ai i.food i.serving with
          | some m =>
              simp only [bookItem]
              split <;> simp [addSuccess, addFailure, addCall] <;> omega
          | none => simp [addFailure, addCall]; omega

theorem resolveItems_order (table : List (List Nat × Macros))
    (ai : List Nat → ℚ → Option Macros) (persist : List Nat → ℚ → Macros → Bool) :
    ∀ items : List FoodItem,
      List.Sublist ((resolveItems table ai persist items).successes.map SuccessItem.name)
          (items.map FoodItem.food) ∧
        List.Sublist (resolveItems table ai persist items).failures
          (items.map FoodItem.food) := by
  intro items
  induction items with
  | nil => exact ⟨List.Sublist.refl _, List.Sublist.refl _⟩
  | cons i rest ih =>
      simp only [resolveItems, resolveOne]
      cases h : match_known_food i.food (table.map (·.1)) with
      | some k =>
          simp only [bookItem]
          split
          · exact ⟨List.Sublist.cons₂ _ ih.1, List.Sublist.cons _ ih.2⟩
          · exact ⟨List.Sublist.cons _ ih.1, List.Sublist.cons₂ _ ih.2⟩
      | none =>
          cases hai : ai i.food i.serving with
          | some m =>
              simp only [bookItem]
              split
              · exact ⟨List.Sublist.cons₂ _ ih.1, List.Sublist.cons _ ih.2⟩
              · exact ⟨List.Sublist.cons _ ih.1, List.Sublist.cons₂ _ ih.2⟩
          | none => exact ⟨List.Sublist.cons _ ih.1, List.Sublist.cons₂ _ ih.2⟩

/-! ## Claim theorems -/

/-- C1: for every per-100g reference profile and serving size, `scale_macros`
returns exactly the profile scaled by `serving / 100` with each of the four
fields rounded to two decimal places. -/
theorem claim1_scaling_law (base_macros : Macros) (serving_size : ℚ) :
    scale_macros base_macros serving_size =
      { Calories := pyRound2 (base_macros.Calories * serving_size / 100),
        Protein := pyRound2 (base_macros.Protein * serving_size / 100),
        Carbohydrates := pyRound2 (base_macros.Carbohydrates * serving_size / 100),
        Fats := pyRound2 (base_macros.Fats * serving_size / 100) } := by
  have h : ∀ x : ℚ, x * (serving_size / 100) = x * serving_size / 100 := fun x => by ring
  simp only [scale_macros, h]

/-- C2 counterexample: in "1 oil 1 tbsp oil", deduplication is keyed on the
stored item name, which for the tbsp mention is the unit-annotated display name
`clean_food_name "oil" ++ " (tbsp)"` = "Oil (tbsp)".  Since the bare-count
mention "Oil" has the same bare normalized name "Oil", two mentions with the
distinct normalized name "Oil" survive — refuting deduplication keyed by the
bare normalized name. -/
theorem claim2_dedup_cex :
    (parse_food_text (enc "1 oil 1 tbsp oil")).map FoodItem.food =
        [enc "Oil", enc "Tbsp Oil", clean_food_name (enc "oil") ++ enc " (tbsp)"] ∧
      clean_food_name (enc "oil") = enc "Oil" := by decide

/-- C2 (amended): mention deduplication is keyed on the stripped stored item
name — the unit-annotated display name for tbsp/tsp mentions — with the first
occurrence winning and later occurrences discarded entirely (no merging or
summing): the emitted list has pairwise distinct keys, and "1 banana 1 banana"
yields exactly one mention "Banana" with serving 120. -/
theorem claim2_dedup_amended :
    (∀ t : List Nat, (((parse_food_text t).map fun i => pyStrip i.food)).Nodup) ∧
      parse_food_text (enc "1 banana 1 banana") =
        [⟨enc "Banana", 120, enc "pieces", some 1⟩] := by
  constructor
  · intro t
    unfold parse_food_text
    exact (dedupAux_nodup _ _).1
  · decide

/-- C3 counterexample: on input "RICE" the cleaner produces "Rice" — Python
`str.capitalize` lowercases the remaining letters — while the algorithm as
claimed (remaining letters left unchanged) would produce "RICE". -/
theorem claim3_clean_cex :
    clean_food_name (enc "RICE") ≠ cleanClaimed (enc "RICE") ∧
      clean_food_name (enc "RICE") = enc "Rice" ∧
      cleanClaimed (enc "RICE") = enc "RICE" := by decide

/-- C4 counterexample: "0g chicken" parses to a mention whose serving mass is 0,
refuting strict positivity of `servingGrams`. -/
theorem claim4_serving_cex :
    parse_food_text (enc "0g chicken") = [⟨enc "Chicken", 0, enc "g", none⟩] ∧
      ¬ (0 : ℚ) < (⟨enc "Chicken", (0 : ℚ), enc "g", none⟩ : FoodItem).serving := by decide

/-- C4 (amended): every food mention emitted by parsing has a nonnegative
serving mass, for all three mention shapes; it is zero exactly when the matched
numeral is zero (for example "0g chicken"). -/
theorem claim4_serving_nonneg (text : List Nat) (i : FoodItem)
    (h : i ∈ parse_food_text text) : 0 ≤ i.serving := by
  rcases mem_parse h with h1 | h2 | h3
  · rcases mem_items1 h1 with ⟨m, _, _, rfl⟩
    exact Nat.cast_nonneg _
  · rcases mem_items2 h2 with ⟨m, _, _, rfl⟩
    exact mul_nonneg (le_of_lt (lookupServing_pos _)) (Nat.cast_nonneg _)
  · rcases mem_items3 h3 with ⟨m, _, _, rfl⟩
    refine mul_nonneg (Nat.cast_nonneg _) ?_
    split <;> norm_num

/-- Witness for the C4 theorem at input "100g chicken". -/
theorem claim4_serving_nonneg_witness :
    (⟨enc "Chicken", 100, enc "g", none⟩ : FoodItem) ∈ parse_food_text (enc "100g chicken") ∧
      0 ≤ (⟨enc "Chicken", (100 : ℚ), enc "g", none⟩ : FoodItem).serving :=
  ⟨by decide, claim4_serving_nonneg (enc "100g chicken") _ (by decide)⟩

/-- C5 counterexample: for "1 tbsp oil" against an empty reference table, the
estimation collaborator is invoked with the unit-annotated stored name
"Oil (tbsp)" and never with the mention's bare normalized name "Oil"
(= `clean_food_name "oil"`), refuting invocation with the normalized name. -/
theorem claim5_estimation_cex :
    (resolveItems [] (fun _ _ => none) (fun _ _ _ => false)
        (parse_food_text (enc "1 tbsp oil"))).aiCalls =
      [(enc "Tbsp Oil", 14), (enc "Oil (tbsp)", 14)] ∧
    clean_food_name (enc "oil") = enc "Oil" ∧
    ¬ (enc "Oil", (14 : ℚ)) ∈
      (resolveItems [] (fun _ _ => none) (fun _ _ _ => false)
        (parse_food_text (enc "1 tbsp oil"))).aiCalls := by decide

theorem resolveOne_failures_mono (table : List (List Nat × Macros))
    (ai : List Nat → ℚ → Option Macros) (persist : List Nat → ℚ → Macros → Bool)
    (j : FoodItem) (r : ResolveResult) {n : List Nat} (h : n ∈ r.failures) :
    n ∈ (resolveOne table ai persist j r).failures := by
  cases hm : match_known_food j.food (table.map (·.1)) with
  | some k =>
      simp only [resolveOne, hm, bookItem]
      split
      · exact h
      · exact List.mem_cons_of_mem _ h
  | none =>
      cases hai : ai j.food j.serving with
      | some m =>
          simp only [resolveOne, hm, hai, bookItem]
          split
          · exact h
          · exact List.mem_cons_of_mem _ h
      | none =>
          simp only [resolveOne, hm, hai]
          exact List.mem_cons_of_mem _ h

theorem resolveItems_est_fail (table : List (List Nat × Macros))
    (ai : List Nat → ℚ → Option Macros) (persist : List Nat → ℚ → Macros → Bool) :
    ∀ items : List FoodItem, ∀ i ∈ items,
      match_known_food i.food (table.map (·.1)) = none → ai i.food i.serving = none →
      i.food ∈ (resolveItems table ai persist items).failures := by
  intro items
  induction items with
  | nil => intro i hi _ _; cases hi
  | cons j rest ih =>
      intro i hi hm hai
      rcases List.mem_cons.1 hi with hij | hi'
      · subst hij
        simp only [resolveItems, resolveOne, hm, hai, addFailure, addCall]
        exact List.mem_cons_self _ _
      · exact resolveOne_failures_mono table ai persist j _ (ih i hi' hm hai)

/-- C5 (amended): for every batch, the estimation collaborator is invoked
exactly once — with the mention's stored name (the unit-annotated display name
for tbsp/tsp mentions) and its serving grams — for exactly the mentions the
reference matcher misses, in order, with no retry (first conjunct); every
mention ends in exactly one of the success or failure lists, so failures never
abort the batch and no mention is silently dropped (second conjunct); and a
mention the matcher misses whose estimation fails is recorded in the explicit
failure list (third conjunct). -/
theorem claim5_estimation_once (table : List (List Nat × Macros))
    (ai : List Nat → ℚ → Option Macros) (persist : List Nat → ℚ → Macros → Bool)
    (items : List FoodItem) :
    (resolveItems table ai persist items).aiCalls =
        (items.filter fun i => (match_known_food i.food (table.map (·.1))).isNone).map
          (fun i => (i.food, i.serving)) ∧
      (resolveItems table ai persist items).successes.length +
          (resolveItems table ai persist items).failures.length = items.length ∧
      ∀ i ∈ items, match_known_food i.food (table.map (·.1)) = none →
        ai i.food i.serving = none →
        i.food ∈ (resolveItems table ai persist items).failures :=
  ⟨resolveItems_aiCalls table ai persist items,
    resolveItems_length table ai persist items,
    resolveItems_est_fail table ai persist items⟩

/-- Witness for the C5 theorem: in "1 tbsp oil" against an empty reference
table with an always-failing estimator, the mention "Oil (tbsp)" — which the
matcher misses and the estimator fails on — is recorded in the failure list. -/
theorem claim5_estimation_once_witness :
    (⟨enc "Oil (tbsp)", 14, enc "tbsp", some 1⟩ : FoodItem) ∈
        parse_food_text (enc "1 tbsp oil") ∧
      enc "Oil (tbsp)" ∈ (resolveItems [] (fun _ _ => none) (fun _ _ _ => false)
        (parse_food_text (enc "1 tbsp oil"))).failures :=
  ⟨by decide,
    (claim5_estimation_once [] (fun _ _ => none) (fun _ _ _ => false)
        (parse_food_text (enc "1 tbsp oil"))).2.2
      ⟨enc "Oil (tbsp)", 14, enc "tbsp", some 1⟩ (by decide) (by decide) rfl⟩

/-- C6 counterexample: in "2 bananas 100g chicken" the mention "bananas" occurs
before "chicken" in the text (first conjunct), yet both the parsed mention list
and the resolved-item sequence put "Chicken" first, because gram-qualified
matches precede bare-count matches — refuting preservation of text order. -/
theorem claim6_order_cex :
    enc "2 bananas 100g chicken" =
        enc "2 " ++ enc "bananas" ++ enc " 100g " ++ enc "chicken" ∧
      (parse_food_text (enc "2 bananas 100g chicken")).map FoodItem.food =
        [enc "Chicken", enc "Bananas"] ∧
      (resolveItems [] (fun _ _ => some ⟨1, 1, 1, 1⟩) (fun _ _ _ => true)
          (parse_food_text (enc "2 bananas 100g chicken"))).successes.map SuccessItem.name =
        [enc "Chicken", enc "Bananas"] := by decide

/-- C6 (amended): the resolved-item and failure sequences each preserve the
order of the deduplicated mention list (which is grammar-rule-major: all
gram-qualified matches in text order, then bare-count, then unit-qualified),
with no other sort applied: each output sequence is a sublist of the mention
sequence. -/
theorem claim6_order_amended (table : List (List Nat × Macros))
    (ai : List Nat → ℚ → Option Macros) (persist : List Nat → ℚ → Macros → Bool)
    (items : List FoodItem) :
    List.Sublist ((resolveItems table ai persist items).successes.map SuccessItem.name)
        (items.map FoodItem.food) ∧
      List.Sublist (resolveItems table ai persist items).failures
        (items.map FoodItem.food) :=
  resolveItems_order table ai persist items

/-- C7 counterexample: "1 tablespoon oil" produces a unit-qualified mention
whose stored name is the bare "Oil" — the long form receives no "(tbsp)"
annotation — refuting that the display name always carries the short unit tag. -/
theorem claim7_unit_cex :
    (parse_food_text (enc "1 tablespoon oil")).map FoodItem.food =
        [enc "Tablespoon Oil", enc "Oil"] ∧
      ¬ enc "Oil (tbsp)" ∈ (parse_food_text (enc "1 tablespoon oil")).map FoodItem.food := by
  decide

/-- C7 (amended): every unit-qualified mention has serving mass quantity × 14
for tbsp/tablespoon and quantity × 5 for tsp/teaspoon; the display name is the
normalized name followed by the parenthesized unit for the short forms tbsp and
tsp only, while the long forms tablespoon and teaspoon leave the bare
normalized name.  Concretely "2 tbsp olive oil" gives 28 grams and "1 tsp oil"
gives 5 grams. -/
theorem claim7_unit_conversion :
    (∀ (text : List Nat) (i : FoodItem), i ∈ parse_food_text text →
      (i.unit = enc "tbsp" ∨ i.unit = enc "tsp" ∨ i.unit = enc "tablespoon" ∨
          i.unit = enc "teaspoon") →
      ∃ (q : ℚ) (base : List Nat), i.quantity = some q ∧
        ((i.unit = enc "tbsp" ∧ i.serving = q * 14 ∧ i.food = base ++ enc " (tbsp)") ∨
         (i.unit = enc "tablespoon" ∧ i.serving = q * 14 ∧ i.food = base) ∨
         (i.unit = enc "tsp" ∧ i.serving = q * 5 ∧ i.food = base ++ enc " (tsp)") ∨
         (i.unit = enc "teaspoon" ∧ i.serving = q * 5 ∧ i.food = base))) ∧
      parse_food_text (enc "2 tbsp olive oil") =
        [⟨enc "Tbsp Olive Oil", 28, enc "pieces", some 2⟩,
         ⟨enc "Olive Oil (tbsp)", 28, enc "tbsp", some 2⟩] ∧
      parse_food_text (enc "1 tsp oil") =
        [⟨enc "Tsp Oil", 5, enc "pieces", some 1⟩,
         ⟨enc "Oil (tsp)", 5, enc "tsp", some 1⟩] := by
  refine ⟨?_, by decide, by decide⟩
  intro text i hmem hunit
  rcases mem_parse hmem with h1 | h2 | h3
  · rcases mem_items1 h1 with ⟨m, _, _, heq⟩
    have hu : i.unit = enc "g" := by rw [heq]
    rcases hunit with h | h | h | h <;> rw [hu] at h <;> exact absurd h (by decide)
  · rcases mem_items2 h2 with ⟨m, _, _, heq⟩
    have hu : i.unit = enc "pieces" := by rw [heq]
    rcases hunit with h | h | h | h <;> rw [hu] at h <;> exact absurd h (by decide)
  · rcases mem_items3 h3 with ⟨m, _, _, rfl⟩
    refine ⟨(digitsVal m.1 : ℚ), clean_food_name m.2.2, rfl, ?_⟩
    rcases hunit with h | h | h | h
    · have hu : m.2.1 = enc "tbsp" := h
      refine Or.inl ⟨h, ?_, ?_⟩
      · show (digitsVal m.1 : ℚ) * _ = _
        rw [hu, if_pos (Or.inl rfl : enc "tbsp" = enc "tbsp" ∨ enc "tbsp" = enc "tablespoon")]
      · show (if _ ∨ _ then _ else _) = _
        rw [hu, if_pos (Or.inl rfl : enc "tbsp" = enc "tbsp" ∨ enc "tbsp" = enc "tsp")]
        have hx : enc " (" ++ (enc "tbsp" ++ enc ")") = enc " (tbsp)" := by decide
        rw [List.append_assoc, List.append_assoc, hx]
    · have hu : m.2.1 = enc "tsp" := h
      refine Or.inr (Or.inr (Or.inl ⟨h, ?_, ?_⟩))
      · show (digitsVal m.1 : ℚ) * _ = _
        rw [hu, if_neg (by decide : ¬(enc "tsp" = enc "tbsp" ∨ enc "tsp" = enc "tablespoon"))]
      · show (if _ ∨ _ then _ else _) = _
        rw [hu, if_pos (Or.inr rfl : enc "tsp" = enc "tbsp" ∨ enc "tsp" = enc "tsp")]
        have hx : enc " (" ++ (enc "tsp" ++ enc ")") = enc " (tsp)" := by decide
        rw [List.append_assoc, List.append_assoc, hx]
    · have hu : m.2.1 = enc "tablespoon" := h
      refine Or.inr (Or.inl ⟨h, ?_, ?_⟩)
      · show (digitsVal m.1 : ℚ) * _ = _
        rw [hu,
          if_pos (Or.inr rfl : enc "tablespoon" = enc "tbsp" ∨ enc "tablespoon" = enc "tablespoon")]
      · show (if _ ∨ _ then _ else _) = _
        rw [hu,
          if_neg (by decide : ¬(enc "tablespoon" = enc "tbsp" ∨ enc "tablespoon" = enc "tsp"))]
    · have hu : m.2.1 = enc "teaspoon" := h
      refine Or.inr (Or.inr (Or.inr ⟨h, ?_, ?_⟩))
      · show (digitsVal m.1 : ℚ) * _ = _
        rw [hu,
          if_neg (by decide : ¬(enc "teaspoon" = enc "tbsp" ∨ enc "teaspoon" = enc "tablespoon"))]
      · show (if _ ∨ _ then _ else _) = _
        rw [hu,
          if_neg (by decide : ¬(enc "teaspoon" = enc "tbsp" ∨ enc "teaspoon" = enc "tsp"))]

/-- Witness for the C7 theorem: the tbsp mention of "2 tbsp olive oil". -/
theorem claim7_unit_conversion_witness :
    ∃ (q : ℚ) (base : List Nat),
      (⟨enc "Olive Oil (tbsp)", 28, enc "tbsp", some 2⟩ : FoodItem).quantity = some q ∧
        (((⟨enc "Olive Oil (tbsp)", 28, enc "tbsp", some 2⟩ : FoodItem).unit = enc "tbsp" ∧
            (⟨enc "Olive Oil (tbsp)", 28, enc "tbsp", some 2⟩ : FoodItem).serving = q * 14 ∧
            (⟨enc "Olive Oil (tbsp)", 28, enc "tbsp", some 2⟩ : FoodItem).food =
              base ++ enc " (tbsp)") ∨
         ((⟨enc "Olive Oil (tbsp)", 28, enc "tbsp", some 2⟩ : FoodItem).unit =
              enc "tablespoon" ∧
            (⟨enc "Olive Oil (tbsp)", 28, enc "tbsp", some 2⟩ : FoodItem).serving = q * 14 ∧
            (⟨enc "Olive Oil (tbsp)", 28, enc "tbsp", some 2⟩ : FoodItem).food = base) ∨
         ((⟨enc "Olive Oil (tbsp)", 28, enc "tbsp", some 2⟩ : FoodItem).unit = enc "tsp" ∧
            (⟨enc "Olive Oil (tbsp)", 28, enc "tbsp", some 2⟩ : FoodItem).serving = q * 5 ∧
            (⟨enc "Olive Oil (tbsp)", 28, enc "tbsp", some 2⟩ : FoodItem).food =
              base ++ enc " (tsp)") ∨
         ((⟨enc "Olive Oil (tbsp)", 28, enc "tbsp", some 2⟩ : FoodItem).unit =
              enc "teaspoon" ∧
            (⟨enc "Olive Oil (tbsp)", 28, enc "tbsp", some 2⟩ : FoodItem).serving = q * 5 ∧
            (⟨enc "Olive Oil (tbsp)", 28, enc "tbsp", some 2⟩ : FoodItem).food = base)) :=
  claim7_unit_conversion.1 (enc "2 tbsp olive oil") _ (by decide) (by decide)

/-! ## Helper lemmas about `get_close_matches` -/

theorem pairLt_fst_le {p q : ℚ × List Nat} (h : pairLt p q = true) : p.1 ≤ q.1 := by
  unfold pairLt at h
  rw [Bool.or_eq_true] at h
  rcases h with h1 | h2
  · exact le_of_lt (of_decide_eq_true h1)
  · rw [Bool.and_eq_true] at h2
    exact le_of_eq (of_decide_eq_true h2.1)

theorem pairLt_false_le {p q : ℚ × List Nat} (h : pairLt p q = false) : q.1 ≤ p.1 := by
  unfold pairLt at h
  exact not_lt.1 (of_decide_eq_false (Bool.or_eq_false_iff.1 h).1)

theorem foldl_best_spec :
    ∀ (l : List (ℚ × List Nat)) (p0 : ℚ × List Nat),
      (l.foldl (fun best c => if pairLt best c then c else best) p0 = p0 ∨
          l.foldl (fun best c => if pairLt best c then c else best) p0 ∈ l) ∧
        p0.1 ≤ (l.foldl (fun best c => if pairLt best c then c else best) p0).1 ∧
        ∀ q ∈ l, q.1 ≤ (l.foldl (fun best c => if pairLt best c then c else best) p0).1 := by
  intro l
  induction l with
  | nil => intro p0; exact ⟨Or.inl rfl, le_refl _, by simp⟩
  | cons c rest ih =>
      intro p0
      simp only [List.foldl_cons]
      by_cases hlt : pairLt p0 c = true
      · rw [if_pos hlt]
        rcases ih c with ⟨hmem, hle, hall⟩
        refine ⟨?_, le_trans (pairLt_fst_le hlt) hle, ?_⟩
        · rcases hmem with h | h
          · exact Or.inr (by rw [h]; exact List.mem_cons_self _ _)
          · exact Or.inr (List.mem_cons_of_mem _ h)
        · intro q hq
          rcases List.mem_cons.1 hq with h | h
          · exact h ▸ hle
          · exact hall q h
      · rw [if_neg hlt]
        rcases ih p0 with ⟨hmem, hle, hall⟩
        refine ⟨?_, hle, ?_⟩
        · rcases hmem with h | h
          · exact Or.inl h
          · exact Or.inr (List.mem_cons_of_mem _ h)
        · intro q hq
          rcases List.mem_cons.1 hq with h | h
          · have hf : pairLt p0 c = false := Bool.eq_false_iff.2 hlt
            exact h ▸ le_trans (pairLt_false_le hf) hle
          · exact hall q h

theorem nlargest1_spec {l : List (ℚ × List Nat)} {p : ℚ × List Nat}
    (h : nlargest1 l = some p) : p ∈ l ∧ ∀ q ∈ l, q.1 ≤ p.1 := by
  cases l with
  | nil => simp [nlargest1] at h
  | cons c rest =>
      simp only [nlargest1, Option.some_inj] at h
      subst h
      rcases foldl_best_spec rest c with ⟨hmem, hle, hall⟩
      refine ⟨?_, ?_⟩
      · rcases hmem with h | h
        · exact (by rw [h]; exact List.mem_cons_self _ _)
        · exact List.mem_cons_of_mem _ h
      · intro q hq
        rcases List.mem_cons.1 hq with h | h
        · exact (by rw [h]; exact hle)
        · exact hall q h

theorem mem_matchResult {word : List Nat} {cutoff : ℚ} {poss : List (List Nat)}
    {p : ℚ × List Nat}
    (h : p ∈ poss.filterMap fun x =>
      if passesCutoff x word cutoff then some (ratio x word, x) else none) :
    p.2 ∈ poss ∧ passesCutoff p.2 word cutoff = true ∧ p.1 = ratio p.2 word := by
  rcases List.mem_filterMap.1 h with ⟨x, hx, hsome⟩
  split at hsome
  · rename_i hp
    cases Option.some_inj.1 hsome
    exact ⟨hx, hp, rfl⟩
  · cases hsome

theorem matchResult_mem {word : List Nat} {cutoff : ℚ} {poss : List (List Nat)}
    {x : List Nat} (hx : x ∈ poss) (hp : passesCutoff x word cutoff = true) :
    (ratio x word, x) ∈ poss.filterMap fun y =>
      if passesCutoff y word cutoff then some (ratio y word, y) else none :=
  List.mem_filterMap.2 ⟨x, hx, by rw [if_pos hp]⟩

/-- C9 counterexample: for table key "EGG" and query "egg" the matcher returns
no match, although the case-insensitive similarity of the key to the query is 1
(well above the 0.85 threshold) — the matcher lowercases the query only, so it
is not case-insensitive in the table keys. -/
theorem claim9_matcher_cex :
    match_known_food (enc "egg") [enc "EGG"] = none ∧
      ratio ((enc "EGG").map lowerC) ((enc "egg").map lowerC) = 1 := by decide

/-- C9 (amended): the reference matcher lowercases the query only and compares
it to the table keys as stored; it returns at most one candidate — a key of
maximal similarity among those passing the 0.85 cutoff cascade — and none when
no key passes; a key whose similarity to the lowered query is exactly 0.85 is
matched (third conjunct: a pair at similarity exactly 17/20 matches). -/
theorem claim9_matcher_threshold :
    (∀ (name : List Nat) (keys : List (List Nat)) (k : List Nat),
        match_known_food name keys = some k →
          k ∈ keys ∧ passesCutoff k (name.map lowerC) (17 / 20) = true ∧
            ∀ k2 ∈ keys, passesCutoff k2 (name.map lowerC) (17 / 20) = true →
              ratio k2 (name.map lowerC) ≤ ratio k (name.map lowerC)) ∧
      (∀ (name : List Nat) (keys : List (List Nat)),
          match_known_food name keys = none →
            ∀ k2 ∈ keys, passesCutoff k2 (name.map lowerC) (17 / 20) = false) ∧
      (match_known_food (enc "abcdefghijklmnopqxyz") [enc "abcdefghijklmnopquvw"] =
          some (enc "abcdefghijklmnopquvw") ∧
        ratio (enc "abcdefghijklmnopquvw") ((enc "abcdefghijklmnopqxyz").map lowerC) =
          17 / 20) := by
  refine ⟨?_, ?_, by decide⟩
  · intro name keys k h
    unfold match_known_food get_close_matches1 at h
    cases ho : nlargest1 (keys.filterMap fun x =>
        if passesCutoff x (name.map lowerC) (17 / 20) then
          some (ratio x (name.map lowerC), x) else none) with
    | none => rw [ho] at h; cases h
    | some p =>
        rw [ho] at h
        have hk : p.2 = k := Option.some_inj.1 h
        rcases nlargest1_spec ho with ⟨hmem, hmax⟩
        rcases mem_matchResult hmem with ⟨hkeys, hpass, hratio⟩
        subst hk
        refine ⟨hkeys, hpass, ?_⟩
        intro k2 hk2 hp2
        have := hmax _ (matchResult_mem hk2 hp2)
        rw [hratio] at this
        exact this
  · intro name keys h k2 hk2
    by_contra hc
    have hp : passesCutoff k2 (name.map lowerC) (17 / 20) = true := by
      rw [← Bool.not_eq_false]; exact hc
    have hmem := matchResult_mem hk2 hp
    unfold match_known_food get_close_matches1 at h
    cases hL : keys.filterMap fun y =>
        if passesCutoff y (name.map lowerC) (17 / 20) then
          some (ratio y (name.map lowerC), y) else none with
    | nil => rw [hL] at hmem; cases hmem
    | cons a as => rw [hL] at h; simp [nlargest1] at h

/-- Witness for the C9 theorem: the exactly-0.85 pair is matched and maximal. -/
theorem claim9_matcher_threshold_witness :
    enc "abcdefghijklmnopquvw" ∈ [enc "abcdefghijklmnopquvw"] ∧
      passesCutoff (enc "abcdefghijklmnopquvw")
          ((enc "abcdefghijklmnopqxyz").map lowerC) (17 / 20) = true ∧
      ∀ k2 ∈ [enc "abcdefghijklmnopquvw"],
        passesCutoff k2 ((enc "abcdefghijklmnopqxyz").map lowerC) (17 / 20) = true →
          ratio k2 ((enc "abcdefghijklmnopqxyz").map lowerC) ≤
            ratio (enc "abcdefghijklmnopquvw") ((enc "abcdefghijklmnopqxyz").map lowerC) :=
  claim9_matcher_threshold.1 (enc "abcdefghijklmnopqxyz") [enc "abcdefghijklmnopquvw"]
    (enc "abcdefghijklmnopquvw") (by decide)

/-- C8: the pipeline replies with the single whole-pipeline failure (no usable
mention found) exactly when parsing extracts no mention; any non-empty mention
list instead produces the itemized result outcome, so the two cases are
distinct. -/
theorem claim8_no_usable_mention (table : List (List Nat × Macros))
    (ai : List Nat → ℚ → Option Macros) (persist : List Nat → ℚ → Macros → Bool)
    (text : List Nat) :
    free_form_input table ai persist text = PipelineOutcome.noMentions ↔
      parse_food_text text = [] := by
  unfold free_form_input
  split
  · rename_i h; simp [h]
  · rename_i h; simp [h]

/-! ## Character-level lemmas -/

theorem lowerC_lowerC (c : Nat) : lowerC (lowerC c) = lowerC c := by
  unfold lowerC; split_ifs <;> omega

theorem lowerC_upperC (c : Nat) : lowerC (upperC c) = lowerC c := by
  unfold lowerC upperC; split_ifs <;> omega

theorem upperC_upperC (c : Nat) : upperC (upperC c) = upperC c := by
  unfold upperC; split_ifs <;> omega

theorem isWordC_lowerC (c : Nat) : isWordC (lowerC c) = isWordC c := by
  unfold isWordC lowerC; split_ifs <;> (rw [decide_eq_decide]; try omega)

theorem isWordC_upperC (c : Nat) : isWordC (upperC c) = isWordC c := by
  unfold isWordC upperC; split_ifs <;> (rw [decide_eq_decide]; try omega)

theorem isSpaceC_lowerC (c : Nat) : isSpaceC (lowerC c) = isSpaceC c := by
  unfold isSpaceC lowerC; split_ifs <;> (rw [decide_eq_decide]; try omega)

theorem isSpaceC_upperC (c : Nat) : isSpaceC (upperC c) = isSpaceC c := by
  unfold isSpaceC upperC; split_ifs <;> (rw [decide_eq_decide]; try omega)

theorem isDigitC_lowerC (c : Nat) : isDigitC (lowerC c) = isDigitC c := by
  unfold isDigitC lowerC; split_ifs <;> (rw [decide_eq_decide]; try omega)

theorem isDigitC_upperC (c : Nat) : isDigitC (upperC c) = isDigitC c := by
  unfold isDigitC upperC; split_ifs <;> (rw [decide_eq_decide]; try omega)

theorem isSpaceC_not_word {c : Nat} (h : isSpaceC c = true) : isWordC c = false := by
  unfold isSpaceC at h; unfold isWordC
  rw [decide_eq_true_eq] at h
  rw [decide_eq_false_iff_not]
  omega

theorem lowerC_ne_lower_letter {c a : Nat} (hw : isWordC c = false) (h1 : 97 ≤ a)
    (h2 : a ≤ 122) : lowerC c ≠ a := by
  unfold isWordC at hw; unfold lowerC
  rw [decide_eq_false_iff_not] at hw
  split_ifs <;> omega

theorem isWordC_of_lowerC_letter {c a : Nat} (h : lowerC c = a) (h1 : 97 ≤ a)
    (h2 : a ≤ 122) : isWordC c = true := by
  unfold lowerC at h; unfold isWordC
  rw [decide_eq_true_eq]
  split_ifs at h <;> omega

/-! ## Word-run lemmas -/

theorem wordRuns_cons_nonword {c : Nat} (h : isWordC c = false) (cs : List Nat) :
    wordRuns (c :: cs) = wordRuns cs := by
  unfold wordRuns
  simp [wordRunsAux, h]

theorem wordRunsAux_acc :
    ∀ (l acc : List Nat), acc ≠ [] →
      wordRunsAux acc l = (acc ++ l.takeWhile isWordC) :: wordRuns (l.dropWhile isWordC) := by
  intro l
  induction l with
  | nil => intro acc h; simp [wordRunsAux, wordRuns, h]
  | cons c cs ih =>
      intro acc h
      by_cases hw : isWordC c = true
      · simp only [wordRunsAux, hw, if_true]
        rw [ih (acc ++ [c]) (by simp), List.takeWhile_cons_of_pos hw,
          List.dropWhile_cons_of_pos hw, List.append_assoc]
        rfl
      · rw [Bool.not_eq_true] at hw
        simp only [wordRunsAux, hw, Bool.false_eq_true, if_false, h, if_neg h]
        rw [List.takeWhile_cons_of_neg (by simp [hw]),
          List.dropWhile_cons_of_neg (by simp [hw]), List.append_nil,
          wordRuns_cons_nonword hw]
        rfl

theorem wordRuns_cons_word {c : Nat} (h : isWordC c = true) (cs : List Nat) :
    wordRuns (c :: cs) =
      (c :: cs.takeWhile isWordC) :: wordRuns (cs.dropWhile isWordC) := by
  unfold wordRuns
  simp only [wordRunsAux, h, if_true]
  rw [show ([] : List Nat) ++ [c] = [c] from rfl, wordRunsAux_acc cs [c] (by simp)]
  rfl

/-! ## Lemmas about the stop-word alternation -/

theorem stopwords_ne_nil : ∀ w ∈ stopwords, w ≠ [] := by decide

theorem stopwords_head_lower :
    ∀ w ∈ stopwords, w ≠ [] ∧ 97 ≤ w.head! ∧ w.head! ≤ 122 := by decide

theorem stopwords_chars_lower : ∀ w ∈ stopwords, ∀ a ∈ w, 97 ≤ a ∧ a ≤ 122 := by decide

theorem lcMatch_some : ∀ {w l rest : List Nat}, lcMatch w l = some rest →
    ∃ m, l = m ++ rest ∧ m.map lowerC = w := by
  intro w
  induction w with
  | nil =>
      intro l rest h
      simp only [lcMatch, Option.some_inj] at h
      exact ⟨[], by rw [h]; rfl, rfl⟩
  | cons a w' ih =>
      intro l rest h
      cases l with
      | nil => simp [lcMatch] at h
      | cons c cs =>
          simp only [lcMatch] at h
          split at h
          · rename_i hc
            rcases ih h with ⟨m, hm1, hm2⟩
            exact ⟨c :: m, by rw [List.cons_append, hm1], by simp [hm2, hc]⟩
          · cases h

theorem lcMatch_complete : ∀ {m : List Nat} (w rest : List Nat),
    m.map lowerC = w → lcMatch w (m ++ rest) = some rest := by
  intro m
  induction m with
  | nil => intro w rest h; rw [← h]; rfl
  | cons c m' ih =>
      intro w rest h
      rw [← h]
      simp only [List.map_cons, List.cons_append, lcMatch, if_pos rfl]
      exact ih _ rest rfl

theorem tryStopwords_some : ∀ {ws : List (List Nat)} {l w rest : List Nat},
    tryStopwords ws l = some (w, rest) →
      w ∈ ws ∧ boundaryAfter rest = true ∧ ∃ m, l = m ++ rest ∧ m.map lowerC = w := by
  intro ws
  induction ws with
  | nil => intro l w rest h; cases h
  | cons w0 ws' ih =>
      intro l w rest h
      cases hm : lcMatch w0 l with
      | some r =>
          simp only [tryStopwords, hm] at h
          by_cases hb : boundaryAfter r = true
          · rw [if_pos hb] at h
            have hpair := Option.some_inj.1 h
            rw [Prod.mk.injEq] at hpair
            obtain ⟨hw0, hr⟩ := hpair
            subst hw0; subst hr
            rcases lcMatch_some hm with ⟨m, hm1, hm2⟩
            exact ⟨List.mem_cons_self _ _, hb, m, hm1, hm2⟩
          · rw [if_neg hb] at h
            rcases ih h with ⟨ha, hb2, hc⟩
            exact ⟨List.mem_cons_of_mem _ ha, hb2, hc⟩
      | none =>
          simp only [tryStopwords, hm] at h
          rcases ih h with ⟨ha, hb2, hc⟩
          exact ⟨List.mem_cons_of_mem _ ha, hb2, hc⟩

theorem tryStopwords_complete : ∀ {ws : List (List Nat)} {w m rest : List Nat},
    w ∈ ws → m.map lowerC = w → boundaryAfter rest = true →
      (tryStopwords ws (m ++ rest)).isSome = true := by
  intro ws
  induction ws with
  | nil => intro w m rest h _ _; cases h
  | cons w0 ws' ih =>
      intro w m rest hmem hmap hb
      cases hm : lcMatch w0 (m ++ rest) with
      | some r =>
          simp only [tryStopwords, hm]
          by_cases hb2 : boundaryAfter r = true
          · rw [if_pos hb2]
            rfl
          · rw [if_neg hb2]
            rcases List.mem_cons.1 hmem with heq | hmem'
            · subst heq
              rw [lcMatch_complete w rest hmap] at hm
              have hr := Option.some_inj.1 hm
              subst hr
              exact absurd hb hb2
            · exact ih hmem' hmap hb
      | none =>
          simp only [tryStopwords, hm]
          rcases List.mem_cons.1 hmem with heq | hmem'
          · subst heq
            rw [lcMatch_complete w rest hmap] at hm
            cases hm
          · exact ih hmem' hmap hb

theorem tryStopwords_nonword_aux :
    ∀ (ws : List (List Nat)), (∀ w ∈ ws, w ≠ [] ∧ 97 ≤ w.head! ∧ w.head! ≤ 122) →
      ∀ {c : Nat} (cs : List Nat), isWordC c = false → tryStopwords ws (c :: cs) = none := by
  intro ws
  induction ws with
  | nil => intro _ c cs _; rfl
  | cons w0 ws' ih =>
      intro hws c cs hw
      obtain ⟨hne, h1, h2⟩ := hws w0 (List.mem_cons_self _ _)
      cases w0 with
      | nil => exact absurd rfl hne
      | cons a w0' =>
          simp only [tryStopwords, lcMatch]
          have ha : lowerC c ≠ a :=
            lowerC_ne_lower_letter hw (by simpa using h1) (by simpa using h2)
          rw [if_neg ha]
          exact ih (fun w hww => hws w (List.mem_cons_of_mem _ hww)) cs hw

theorem tryStopwords_nonword {c : Nat} (cs : List Nat) (hw : isWordC c = false) :
    tryStopwords stopwords (c :: cs) = none :=
  tryStopwords_nonword_aux stopwords stopwords_head_lower cs hw

/-! ## Derived step equations of the stop-word scanner -/

theorem removeStopAux_skip : ∀ (n : Nat) (l : List Nat),
    removeStopAux n true l = removeStopAux 0 true (l.drop n) := by
  intro n
  induction n with
  | zero => intro l; rfl
  | succ k ih =>
      intro l
      cases l with
      | nil => rfl
      | cons c cs =>
          show removeStopAux k true cs = _
          rw [ih cs]
          rfl

theorem removeStopAux_true_cons (c : Nat) (cs : List Nat) :
    removeStopAux 0 true (c :: cs) = c :: removeStopAux 0 (isWordC c) cs := by
  simp [removeStopAux]

theorem removeStopAux_false_none {c : Nat} {cs : List Nat}
    (h : tryStopwords stopwords (c :: cs) = none) :
    removeStopAux 0 false (c :: cs) = c :: removeStopAux 0 (isWordC c) cs := by
  simp [removeStopAux, h]

theorem removeStopAux_false_some {c : Nat} {cs w rest : List Nat}
    (h : tryStopwords stopwords (c :: cs) = some (w, rest)) :
    removeStopAux 0 false (c :: cs) = removeStopAux 0 true rest := by
  rcases tryStopwords_some h with ⟨hmem, _, m, hdecomp, hmap⟩
  have hmne : m ≠ [] := by
    intro hm
    subst hm
    exact stopwords_ne_nil w hmem (by simpa using hmap.symm)
  have hlen : w.length = m.length := by rw [← hmap]; simp
  have hrest : rest = cs.drop (w.length - 1) := by
    cases m with
    | nil => exact absurd rfl hmne
    | cons c0 m' =>
        have hcs : cs = m' ++ rest := by
          have := hdecomp
          rw [List.cons_append] at this
          exact (List.cons.injEq _ _ _ _ ▸ this).2
        rw [hlen]
        simp only [List.length_cons, Nat.add_sub_cancel, hcs]
        rw [List.drop_left]
  have hstep : removeStopAux 0 false (c :: cs) = removeStopAux (w.length - 1) true cs := by
    simp [removeStopAux, h]
  rw [hstep, removeStopAux_skip, ← hrest]

theorem dropWhile_head_not {p : Nat → Bool} :
    ∀ {l : List Nat} {c : Nat} {t : List Nat}, l.dropWhile p = c :: t → p c = false := by
  intro l
  induction l with
  | nil => intro c t h; cases h
  | cons d ds ih =>
      intro c t h
      by_cases hp : p d = true
      · rw [List.dropWhile_cons_of_pos hp] at h
        exact ih h
      · rw [Bool.not_eq_true] at hp
        rw [List.dropWhile_cons_of_neg (by simp [hp])] at h
        injection h with h1 _
        exact h1 ▸ hp

/-- The stop-word scanner started mid-run preserves the initial word run. -/
theorem takeWhile_removeStop_true : ∀ (cs : List Nat),
    (removeStopAux 0 true cs).takeWhile isWordC = cs.takeWhile isWordC := by
  intro cs
  induction cs with
  | nil => rfl
  | cons d ds ih =>
      rw [removeStopAux_true_cons]
      by_cases hw : isWordC d = true
      · rw [hw, List.takeWhile_cons_of_pos hw, List.takeWhile_cons_of_pos hw, ih]
      · rw [Bool.not_eq_true] at hw
        rw [hw, List.takeWhile_cons_of_neg (by simp [hw]),
          List.takeWhile_cons_of_neg (by simp [hw])]

/-- Output invariant of the stop-word scanner: no maximal word run of the
output (outside the exempt partial first run when started mid-word) lowercases
to a stop word. -/
theorem removeStop_no_bad_runs :
    ∀ (n : Nat) (l : List Nat), l.length ≤ n → ∀ (b : Bool),
      ∀ r ∈ runsFrom b (removeStopAux 0 b l), (r.map lowerC) ∉ stopwords := by
  intro n
  induction n with
  | zero =>
      intro l hl b
      have h0 : l = [] := List.length_eq_zero.1 (Nat.le_zero.1 hl)
      subst h0
      intro r hr
      cases b <;> simp [removeStopAux, runsFrom, wordRuns, wordRunsAux] at hr
  | succ n ih =>
      intro l hl b
      cases l with
      | nil =>
          intro r hr
          cases b <;> simp [removeStopAux, runsFrom, wordRuns, wordRunsAux] at hr
      | cons c cs =>
          have hcs : cs.length ≤ n := by simp at hl; omega
          cases b with
          | true =>
              rw [removeStopAux_true_cons]
              simp only [runsFrom]
              by_cases hw : isWordC c = true
              · rw [hw, List.dropWhile_cons_of_pos hw]
                have := ih cs hcs true
                simpa only [runsFrom] using this
              · rw [Bool.not_eq_true] at hw
                rw [hw, List.dropWhile_cons_of_neg (by simp [hw]), wordRuns_cons_nonword hw]
                have := ih cs hcs false
                simpa only [runsFrom] using this
          | false =>
              cases htry : tryStopwords stopwords (c :: cs) with
              | none =>
                  rw [removeStopAux_false_none htry]
                  simp only [runsFrom]
                  by_cases hw : isWordC c = true
                  · rw [hw, wordRuns_cons_word hw]
                    intro r hr
                    rcases List.mem_cons.1 hr with hr0 | hr1
                    · subst hr0
                      rw [takeWhile_removeStop_true]
                      intro hbad
                      have hb2 : boundaryAfter (cs.dropWhile isWordC) = true := by
                        cases hdw : cs.dropWhile isWordC with
                        | nil => rfl
                        | cons e es =>
                            have he : isWordC e = false := dropWhile_head_not hdw
                            simp [boundaryAfter, he]
                      have hsome := tryStopwords_complete hbad rfl hb2
                      rw [List.cons_append, List.takeWhile_append_dropWhile] at hsome
                      rw [htry] at hsome
                      cases hsome
                    · have := ih cs hcs true
                      simp only [runsFrom] at this
                      exact this r hr1
                  · rw [Bool.not_eq_true] at hw
                    rw [hw, wordRuns_cons_nonword hw]
                    have := ih cs hcs false
                    simpa only [runsFrom] using this
              | some p =>
                  obtain ⟨w, rest⟩ := p
                  rw [removeStopAux_false_some htry]
                  simp only [runsFrom]
                  rcases tryStopwords_some htry with ⟨hmem, hba, m, hdec, hmap⟩
                  cases rest with
                  | nil =>
                      intro r hr
                      simp [removeStopAux, wordRuns, wordRunsAux] at hr
                  | cons d t =>
                      have hd : isWordC d = false := by simpa [boundaryAfter] using hba
                      rw [removeStopAux_true_cons, hd, wordRuns_cons_nonword hd]
                      have hm_ne : m ≠ [] := by
                        intro hm0
                        subst hm0
                        exact stopwords_ne_nil w hmem (by simpa using hmap.symm)
                      have hlen : t.length ≤ n := by
                        have hc := congrArg List.length hdec
                        simp [List.length_append] at hc
                        have hml : 1 ≤ m.length := by
                          cases m with
                          | nil => exact absurd rfl hm_ne
                          | cons _ _ => simp
                        omega
                      have := ih t hlen false
                      simpa only [runsFrom] using this

/-- The stop-word scanner is the identity on a string none of whose actionable
word runs lowercases to a stop word. -/
theorem removeStop_id :
    ∀ (n : Nat) (l : List Nat), l.length ≤ n → ∀ (b : Bool),
      (∀ r ∈ runsFrom b l, (r.map lowerC) ∉ stopwords) → removeStopAux 0 b l = l := by
  intro n
  induction n with
  | zero =>
      intro l hl b _
      have h0 : l = [] := List.length_eq_zero.1 (Nat.le_zero.1 hl)
      subst h0
      rfl
  | succ n ih =>
      intro l hl b hruns
      cases l with
      | nil => rfl
      | cons c cs =>
          have hcs : cs.length ≤ n := by simp at hl; omega
          cases b with
          | true =>
              rw [removeStopAux_true_cons]
              congr 1
              by_cases hw : isWordC c = true
              · rw [hw]
                refine ih cs hcs true ?_
                simp only [runsFrom] at hruns ⊢
                rw [List.dropWhile_cons_of_pos hw] at hruns
                exact hruns
              · rw [Bool.not_eq_true] at hw
                rw [hw]
                refine ih cs hcs false ?_
                simp only [runsFrom] at hruns ⊢
                rw [List.dropWhile_cons_of_neg (by simp [hw]), wordRuns_cons_nonword hw] at hruns
                exact hruns
          | false =>
              by_cases hw : isWordC c = true
              · have htry : tryStopwords stopwords (c :: cs) = none := by
                  cases htry : tryStopwords stopwords (c :: cs) with
                  | none => rfl
                  | some p =>
                      obtain ⟨w, rest⟩ := p
                      exfalso
                      rcases tryStopwords_some htry with ⟨hmem, hba, m, hdec, hmap⟩
                      have hmw : ∀ x ∈ m, isWordC x = true := by
                        intro x hx
                        have hlx : lowerC x ∈ w := by
                          rw [← hmap]
                          exact List.mem_map_of_mem _ hx
                        obtain ⟨h1, h2⟩ := stopwords_chars_lower w hmem _ hlx
                        exact isWordC_of_lowerC_letter rfl h1 h2
                      have htw : (c :: cs).takeWhile isWordC = m := by
                        rw [hdec, List.takeWhile_append_of_pos hmw]
                        cases rest with
                        | nil => simp
                        | cons d t =>
                            have hd : isWordC d = false := by simpa [boundaryAfter] using hba
                            rw [List.takeWhile_cons_of_neg (by simp [hd]), List.append_nil]
                      have hr0 : (c :: cs.takeWhile isWordC) ∈ runsFrom false (c :: cs) := by
                        simp only [runsFrom]
                        rw [wordRuns_cons_word hw]
                        exact List.mem_cons_self _ _
                      have hbad := hruns _ hr0
                      rw [show c :: cs.takeWhile isWordC = (c :: cs).takeWhile isWordC from
                        (List.takeWhile_cons_of_pos hw).symm, htw, hmap] at hbad
                      exact hbad hmem
                rw [removeStopAux_false_none htry, hw]
                congr 1
                refine ih cs hcs true ?_
                simp only [runsFrom] at hruns ⊢
                rw [wordRuns_cons_word hw] at hruns
                intro r hr
                exact hruns r (List.mem_cons_of_mem _ hr)
              · rw [Bool.not_eq_true] at hw
                rw [removeStopAux_false_none (tryStopwords_nonword cs hw), hw]
                congr 1
                refine ih cs hcs false ?_
                simp only [runsFrom] at hruns ⊢
                rw [wordRuns_cons_nonword hw] at hruns
                exact hruns

/-! ## Word runs are invariant under the whitespace-editing steps -/

theorem wordRunsAux_all_nonword :
    ∀ (u acc : List Nat), (∀ x ∈ u, isWordC x = false) →
      wordRunsAux acc u = if acc = [] then [] else [acc] := by
  intro u
  induction u with
  | nil => intro acc _; rfl
  | cons c u' ih =>
      intro acc hu
      have hc : isWordC c = false := hu c (List.mem_cons_self _ _)
      have hu' : ∀ x ∈ u', isWordC x = false := fun x hx => hu x (List.mem_cons_of_mem _ hx)
      by_cases ha : acc = []
      · subst ha
        simp only [wordRunsAux, hc, Bool.false_eq_true, if_false, if_pos rfl]
        rw [ih [] hu']
        simp
      · simp only [wordRunsAux, hc, Bool.false_eq_true, if_false, if_neg ha]
        rw [ih [] hu']
        simp [ha]

theorem wordRunsAux_append_junk :
    ∀ (t : List Nat) {u : List Nat}, (∀ x ∈ u, isWordC x = false) →
      ∀ acc, wordRunsAux acc (t ++ u) = wordRunsAux acc t := by
  intro t
  induction t with
  | nil =>
      intro u hu acc
      rw [List.nil_append, wordRunsAux_all_nonword u acc hu]
      rfl
  | cons d t' ih =>
      intro u hu acc
      rw [List.cons_append]
      by_cases hd : isWordC d = true
      · simp only [wordRunsAux, hd, if_true]
        exact ih hu _
      · rw [Bool.not_eq_true] at hd
        by_cases ha : acc = []
        · subst ha
          simp only [wordRunsAux, hd, Bool.false_eq_true, if_false, if_pos rfl]
          exact ih hu []
        · simp only [wordRunsAux, hd, Bool.false_eq_true, if_false, if_neg ha]
          rw [ih hu []]

theorem collapse_wordRuns :
    ∀ (cs : List Nat),
      (∀ acc, wordRunsAux acc (collapseSpacesAux false cs) = wordRunsAux acc cs) ∧
        wordRunsAux [] (collapseSpacesAux true cs) = wordRunsAux [] cs := by
  intro cs
  induction cs with
  | nil => exact ⟨fun _ => rfl, rfl⟩
  | cons c cs' ih =>
      constructor
      · intro acc
        by_cases hc : isSpaceC c = true
        · have hw : isWordC c = false := isSpaceC_not_word hc
          have hw32 : isWordC 32 = false := by decide
          simp only [collapseSpacesAux, hc, if_true, Bool.false_eq_true, if_false]
          simp only [wordRunsAux, hw32, hw, Bool.false_eq_true, if_false]
          rw [ih.2]
        · rw [Bool.not_eq_true] at hc
          simp only [collapseSpacesAux, hc, Bool.false_eq_true, if_false]
          by_cases hw : isWordC c = true
          · simp only [wordRunsAux, hw, if_true]
            exact ih.1 _
          · rw [Bool.not_eq_true] at hw
            simp only [wordRunsAux, hw, Bool.false_eq_true, if_false]
            rw [ih.1 []]
      · by_cases hc : isSpaceC c = true
        · have hw : isWordC c = false := isSpaceC_not_word hc
          simp only [collapseSpacesAux, hc, if_true]
          rw [ih.2]
          simp [wordRunsAux, hw]
        · rw [Bool.not_eq_true] at hc
          simp only [collapseSpacesAux, hc, Bool.false_eq_true, if_false]
          by_cases hw : isWordC c = true
          · simp only [wordRunsAux, hw, if_true, List.nil_append]
            exact ih.1 [c]
          · rw [Bool.not_eq_true] at hw
            simp only [wordRunsAux, hw, Bool.false_eq_true, if_false, if_pos rfl]
            exact ih.1 []

theorem wordRuns_collapse (l : List Nat) : wordRuns (collapseSpaces l) = wordRuns l :=
  (collapse_wordRuns l).1 []

theorem wordRuns_dropWhile_space :
    ∀ l : List Nat, wordRuns (l.dropWhile isSpaceC) = wordRuns l := by
  intro l
  induction l with
  | nil => rfl
  | cons c cs ih =>
      by_cases hc : isSpaceC c = true
      · rw [List.dropWhile_cons_of_pos hc, ih, wordRuns_cons_nonword (isSpaceC_not_word hc)]
      · rw [Bool.not_eq_true] at hc
        rw [List.dropWhile_cons_of_neg (by simp [hc])]

theorem strip_decomp (y : List Nat) :
    ∃ tw : List Nat, y.dropWhile isSpaceC = pyStrip y ++ tw ∧ ∀ x ∈ tw, isSpaceC x = true := by
  refine ⟨((y.dropWhile isSpaceC).reverse.takeWhile isSpaceC).reverse, ?_, ?_⟩
  · have h1 : (y.dropWhile isSpaceC).reverse =
        ((y.dropWhile isSpaceC).reverse.takeWhile isSpaceC) ++
          ((y.dropWhile isSpaceC).reverse.dropWhile isSpaceC) :=
      (List.takeWhile_append_dropWhile _ _).symm
    have h2 := congrArg List.reverse h1
    rw [List.reverse_reverse, List.reverse_append] at h2
    exact h2
  · intro x hx
    rw [List.mem_reverse] at hx
    exact List.mem_takeWhile_imp hx

theorem wordRuns_pyStrip (y : List Nat) : wordRuns (pyStrip y) = wordRuns y := by
  rcases strip_decomp y with ⟨tw, hdec, htw⟩
  have hjunk : wordRuns (y.dropWhile isSpaceC) = wordRuns (pyStrip y) := by
    rw [hdec]
    exact wordRunsAux_append_junk (pyStrip y)
      (fun x hx => isSpaceC_not_word (htw x hx)) []
  rw [← hjunk, wordRuns_dropWhile_space]

theorem wordRunsAux_append_sep :
    ∀ (a : List Nat) {c : Nat} (b : List Nat), isWordC c = false →
      ∀ acc, wordRunsAux acc (a ++ c :: b) = wordRunsAux acc a ++ wordRuns b := by
  intro a
  induction a with
  | nil =>
      intro c b hc acc
      rw [List.nil_append]
      by_cases ha : acc = []
      · subst ha
        simp only [wordRunsAux, hc, Bool.false_eq_true, if_false, if_pos rfl]
        rfl
      · simp only [wordRunsAux, hc, Bool.false_eq_true, if_false, if_neg ha]
        rfl
  | cons d a' ih =>
      intro c b hc acc
      rw [List.cons_append]
      by_cases hd : isWordC d = true
      · simp only [wordRunsAux, hd, if_true]
        exact ih b hc _
      · rw [Bool.not_eq_true] at hd
        by_cases ha : acc = []
        · subst ha
          simp only [wordRunsAux, hd, Bool.false_eq_true, if_false, if_pos rfl]
          exact ih b hc []
        · simp only [wordRunsAux, hd, Bool.false_eq_true, if_false, if_neg ha]
          rw [ih b hc [], List.cons_append]

theorem wordRuns_append_sep (a : List Nat) {c : Nat} (b : List Nat) (hc : isWordC c = false) :
    wordRuns (a ++ c :: b) = wordRuns a ++ wordRuns b :=
  wordRunsAux_append_sep a b hc []

theorem wordRuns_joinSpace :
    ∀ W : List (List Nat), wordRuns (joinSpace W) = (W.map wordRuns).flatten := by
  intro W
  induction W with
  | nil => rfl
  | cons w ws ih =>
      cases ws with
      | nil => simp [joinSpace, List.flatten]
      | cons w2 ws' =>
          rw [show joinSpace (w :: w2 :: ws') = w ++ 32 :: joinSpace (w2 :: ws') from rfl]
          rw [wordRuns_append_sep w _ (by decide), ih]
          simp [List.flatten]

theorem wordRunsAux_map {f : Nat → Nat} (hf : ∀ x, isWordC (f x) = isWordC x) :
    ∀ (l acc : List Nat),
      wordRunsAux (acc.map f) (l.map f) = (wordRunsAux acc l).map (List.map f) := by
  intro l
  induction l with
  | nil =>
      intro acc
      by_cases ha : acc = []
      · subst ha; rfl
      · simp [wordRunsAux, ha]
  | cons c cs ih =>
      intro acc
      rw [List.map_cons]
      by_cases hc : isWordC c = true
      · have hfc : isWordC (f c) = true := by rw [hf c]; exact hc
        simp only [wordRunsAux, hfc, hc, if_true]
        have hmap : acc.map f ++ [f c] = (acc ++ [c]).map f := by simp
        rw [hmap]
        exact ih (acc ++ [c])
      · rw [Bool.not_eq_true] at hc
        have hfc : isWordC (f c) = false := by rw [hf c]; exact hc
        by_cases ha : acc = []
        · subst ha
          simp only [wordRunsAux, hfc, hc, Bool.false_eq_true, if_false, if_pos rfl,
            List.map_nil]
          exact ih []
        · have ha2 : acc.map f ≠ [] := by simp [ha]
          simp only [wordRunsAux, hfc, hc, Bool.false_eq_true, if_false, if_neg ha,
            if_neg ha2, List.map_cons]
          congr 1
          exact ih []

theorem wordRuns_map_lower (l : List Nat) :
    wordRuns (l.map lowerC) = (wordRuns l).map (List.map lowerC) :=
  wordRunsAux_map isWordC_lowerC l []

theorem map_lower_capitalize (w : List Nat) :
    (pyCapitalize w).map lowerC = w.map lowerC := by
  cases w with
  | nil => rfl
  | cons c cs =>
      simp only [pyCapitalize, List.map_cons, lowerC_upperC c, List.map_map]
      congr 1
      exact List.map_congr_left fun x _ => lowerC_lowerC x

/-! ## `pySplit` lemmas -/

theorem pySplit_cons_space {c : Nat} (h : isSpaceC c = true) (cs : List Nat) :
    pySplit (c :: cs) = pySplit cs := by
  simp [pySplit, pySplitAux, h]

theorem pySplitAux_acc :
    ∀ (l acc : List Nat), acc ≠ [] →
      pySplitAux acc l = (acc ++ l.takeWhile (fun x => !isSpaceC x)) ::
        pySplit (l.dropWhile (fun x => !isSpaceC x)) := by
  intro l
  induction l with
  | nil => intro acc h; simp [pySplitAux, pySplit, h]
  | cons c cs ih =>
      intro acc h
      by_cases hc : isSpaceC c = true
      · simp only [pySplitAux, hc, if_true, if_neg h]
        rw [List.takeWhile_cons_of_neg (by simp [hc]),
          List.dropWhile_cons_of_neg (by simp [hc]), List.append_nil,
          pySplit_cons_space hc]
        rfl
      · rw [Bool.not_eq_true] at hc
        simp only [pySplitAux, hc, Bool.false_eq_true, if_false]
        rw [ih (acc ++ [c]) (by simp), List.takeWhile_cons_of_pos (by simp [hc]),
          List.dropWhile_cons_of_pos (by simp [hc]), List.append_assoc]
        rfl

theorem pySplit_cons_nonspace {c : Nat} (h : isSpaceC c = false) (cs : List Nat) :
    pySplit (c :: cs) = (c :: cs.takeWhile (fun x => !isSpaceC x)) ::
      pySplit (cs.dropWhile (fun x => !isSpaceC x)) := by
  unfold pySplit
  simp only [pySplitAux, h, Bool.false_eq_true, if_false, List.nil_append]
  rw [pySplitAux_acc cs [c] (by simp)]
  rfl

theorem pySplit_wordRuns :
    ∀ (n : Nat) (y : List Nat), y.length ≤ n →
      ((pySplit y).map wordRuns).flatten = wordRuns y := by
  intro n
  induction n with
  | zero =>
      intro y hy
      have h0 : y = [] := List.length_eq_zero.1 (Nat.le_zero.1 hy)
      subst h0
      rfl
  | succ n ih =>
      intro y hy
      cases y with
      | nil => rfl
      | cons c cs =>
          have hcs : cs.length ≤ n := by simp at hy; omega
          by_cases hc : isSpaceC c = true
          · rw [pySplit_cons_space hc, ih cs hcs, wordRuns_cons_nonword (isSpaceC_not_word hc)]
          · rw [Bool.not_eq_true] at hc
            rw [pySplit_cons_nonspace hc]
            simp only [List.map_cons, List.flatten_cons]
            have hdw : (cs.dropWhile (fun x => !isSpaceC x)).length ≤ n :=
              le_trans (List.Sublist.length_le (List.dropWhile_sublist _)) hcs
            rw [ih _ hdw]
            have key : wordRuns ((c :: cs.takeWhile (fun x => !isSpaceC x)) ++
                  cs.dropWhile (fun x => !isSpaceC x)) =
                wordRuns (c :: cs.takeWhile (fun x => !isSpaceC x)) ++
                  wordRuns (cs.dropWhile (fun x => !isSpaceC x)) := by
              cases hdw2 : cs.dropWhile (fun x => !isSpaceC x) with
              | nil => simp [wordRuns, wordRunsAux]
              | cons d dt =>
                  have hd : isWordC d = false :=
                    isSpaceC_not_word (by simpa using dropWhile_head_not hdw2)
                  rw [wordRuns_append_sep _ _ hd, wordRuns_cons_nonword hd]
            rw [← key, List.cons_append, List.takeWhile_append_dropWhile]

theorem pySplitAux_all_space :
    ∀ (u acc : List Nat), (∀ x ∈ u, isSpaceC x = true) →
      pySplitAux acc u = if acc = [] then [] else [acc] := by
  intro u
  induction u with
  | nil => intro acc _; rfl
  | cons c u' ih =>
      intro acc hu
      have hc : isSpaceC c = true := hu c (List.mem_cons_self _ _)
      have hu' : ∀ x ∈ u', isSpaceC x = true := fun x hx => hu x (List.mem_cons_of_mem _ hx)
      by_cases ha : acc = []
      · subst ha
        simp only [pySplitAux, hc, if_true, if_pos rfl]
        rw [ih [] hu']
        simp
      · simp only [pySplitAux, hc, if_true, if_neg ha]
        rw [ih [] hu']
        simp [ha]

theorem pySplitAux_append_space :
    ∀ (t : List Nat) {u : List Nat}, (∀ x ∈ u, isSpaceC x = true) →
      ∀ acc, pySplitAux acc (t ++ u) = pySplitAux acc t := by
  intro t
  induction t with
  | nil =>
      intro u hu acc
      rw [List.nil_append, pySplitAux_all_space u acc hu]
      rfl
  | cons d t' ih =>
      intro u hu acc
      rw [List.cons_append]
      by_cases hd : isSpaceC d = true
      · by_cases ha : acc = []
        · subst ha
          simp only [pySplitAux, hd, if_true, if_pos rfl]
          exact ih hu []
        · simp only [pySplitAux, hd, if_true, if_neg ha]
          rw [ih hu []]
      · rw [Bool.not_eq_true] at hd
        simp only [pySplitAux, hd, Bool.false_eq_true, if_false]
        exact ih hu _

theorem pySplit_dropWhile_space :
    ∀ y : List Nat, pySplit (y.dropWhile isSpaceC) = pySplit y := by
  intro y
  induction y with
  | nil => rfl
  | cons c cs ih =>
      by_cases hc : isSpaceC c = true
      · rw [List.dropWhile_cons_of_pos hc, ih, pySplit_cons_space hc]
      · rw [Bool.not_eq_true] at hc
        rw [List.dropWhile_cons_of_neg (by simp [hc])]

theorem pySplit_pyStrip (y : List Nat) : pySplit (pyStrip y) = pySplit y := by
  rcases strip_decomp y with ⟨tw, hdec, htw⟩
  have hjunk : pySplit (y.dropWhile isSpaceC) = pySplit (pyStrip y) := by
    rw [hdec]
    exact pySplitAux_append_space (pyStrip y) htw []
  rw [← hjunk, pySplit_dropWhile_space]

theorem collapse_pySplit :
    ∀ (cs : List Nat),
      (∀ acc, pySplitAux acc (collapseSpacesAux false cs) = pySplitAux acc cs) ∧
        pySplitAux [] (collapseSpacesAux true cs) = pySplitAux [] cs := by
  intro cs
  induction cs with
  | nil => exact ⟨fun _ => rfl, rfl⟩
  | cons c cs' ih =>
      constructor
      · intro acc
        by_cases hc : isSpaceC c = true
        · have h32 : isSpaceC 32 = true := by decide
          simp only [collapseSpacesAux, hc, if_true, Bool.false_eq_true, if_false]
          simp only [pySplitAux, h32, hc, if_true]
          rw [ih.2]
        · rw [Bool.not_eq_true] at hc
          simp only [collapseSpacesAux, hc, Bool.false_eq_true, if_false]
          simp only [pySplitAux, hc, Bool.false_eq_true, if_false]
          exact ih.1 _
      · by_cases hc : isSpaceC c = true
        · simp only [collapseSpacesAux, hc, if_true]
          rw [ih.2]
          simp only [pySplitAux, hc, if_true, if_pos rfl]
        · rw [Bool.not_eq_true] at hc
          simp only [collapseSpacesAux, hc, Bool.false_eq_true, if_false]
          simp only [pySplitAux, hc, Bool.false_eq_true, if_false, List.nil_append]
          exact ih.1 [c]

theorem pySplit_strip_collapse (z : List Nat) :
    pySplit (pyStrip (collapseSpaces z)) = pySplit z := by
  rw [pySplit_pyStrip]
  exact (collapse_pySplit z).1 []

/-- C3 (amended): the cleaner strips numeric tokens, removes the stop words as
whole case-insensitive words, splits the remainder into whitespace-separated
words and rejoins them with single spaces, capitalizing each word Python-style
(first letter uppercased, the rest lowercased).  The conjuncts instantiate the
algorithm on a compound phrase and on the counterexample input. -/
theorem claim3_clean_amended :
    (∀ s : List Nat, clean_food_name s = cleanAmended s) ∧
      clean_food_name (enc "100 grams of RICE and the beans") = enc "Rice Beans" ∧
      clean_food_name (enc "RICE") = enc "Rice" := by
  refine ⟨?_, by decide, by decide⟩
  intro s
  unfold clean_food_name cleanAmended
  rw [pySplit_strip_collapse]

/-! ## The cleaner's output contains no digits -/

theorem stripNumbersAux_cases (st : NumSt) (d : Nat) (ds : List Nat) :
    (∃ st', stripNumbersAux st (d :: ds) = stripNumbersAux st' ds) ∨
      (isDigitC d = false ∧ stripNumbersAux st (d :: ds) = d :: stripNumbersAux .norm ds) := by
  cases st <;> simp only [stripNumbersAux] <;> split_ifs <;>
    first
      | exact Or.inl ⟨_, rfl⟩
      | exact Or.inr ⟨by simp_all, rfl⟩

theorem stripNumbersAux_no_digit :
    ∀ (l : List Nat) (st : NumSt) (c : Nat), c ∈ stripNumbersAux st l → isDigitC c = false := by
  intro l
  induction l with
  | nil => intro st c hc; cases st <;> simp [stripNumbersAux] at hc
  | cons d ds ih =>
      intro st c hc
      rcases stripNumbersAux_cases st d ds with ⟨st', heq⟩ | ⟨hd, heq⟩
      · rw [heq] at hc
        exact ih st' c hc
      · rw [heq] at hc
        rcases List.mem_cons.1 hc with h | h
        · exact h ▸ hd
        · exact ih _ c h

theorem stripNumbers_id :
    ∀ (l : List Nat), (∀ c ∈ l, isDigitC c = false) → stripNumbers l = l := by
  intro l
  induction l with
  | nil => intro _; rfl
  | cons d ds ih =>
      intro h
      have hd : isDigitC d = false := h d (List.mem_cons_self _ _)
      show stripNumbersAux .norm (d :: ds) = d :: ds
      simp only [stripNumbersAux, hd, Bool.false_eq_true, if_false]
      exact congrArg (d :: ·) (ih fun c hc => h c (List.mem_cons_of_mem _ hc))

theorem mem_removeStopAux :
    ∀ (l : List Nat) (k : Nat) (b : Bool) (c : Nat), c ∈ removeStopAux k b l → c ∈ l := by
  intro l
  induction l with
  | nil => intro k b c hc; simp [removeStopAux] at hc
  | cons d ds ih =>
      intro k b c hc
      cases k with
      | succ k' => exact List.mem_cons_of_mem _ (ih k' true c hc)
      | zero =>
          cases b with
          | true =>
              rw [removeStopAux_true_cons] at hc
              rcases List.mem_cons.1 hc with h | h
              · exact h ▸ List.mem_cons_self _ _
              · exact List.mem_cons_of_mem _ (ih 0 _ c h)
          | false =>
              cases htry : tryStopwords stopwords (d :: ds) with
              | none =>
                  rw [removeStopAux_false_none htry] at hc
                  rcases List.mem_cons.1 hc with h | h
                  · exact h ▸ List.mem_cons_self _ _
                  · exact List.mem_cons_of_mem _ (ih 0 _ c h)
              | some p =>
                  obtain ⟨w, rest⟩ := p
                  have heq : removeStopAux 0 false (d :: ds) =
                      removeStopAux (w.length - 1) true ds := by simp [removeStopAux, htry]
                  rw [heq] at hc
                  exact List.mem_cons_of_mem _ (ih _ true c hc)

theorem mem_collapseSpacesAux :
    ∀ (l : List Nat) (b : Bool) (c : Nat), c ∈ collapseSpacesAux b l → c = 32 ∨ c ∈ l := by
  intro l
  induction l with
  | nil => intro b c hc; simp [collapseSpacesAux] at hc
  | cons d ds ih =>
      intro b c hc
      by_cases hd : isSpaceC d = true
      · cases b with
        | true =>
            simp only [collapseSpacesAux, hd, if_true] at hc
            rcases ih true c hc with h | h
            · exact Or.inl h
            · exact Or.inr (List.mem_cons_of_mem _ h)
        | false =>
            simp only [collapseSpacesAux, hd, if_true, Bool.false_eq_true, if_false] at hc
            rcases List.mem_cons.1 hc with h | h
            · exact Or.inl h
            · rcases ih true c h with h2 | h2
              · exact Or.inl h2
              · exact Or.inr (List.mem_cons_of_mem _ h2)
      · rw [Bool.not_eq_true] at hd
        simp only [collapseSpacesAux, hd, Bool.false_eq_true, if_false] at hc
        rcases List.mem_cons.1 hc with h | h
        · exact Or.inr (h ▸ List.mem_cons_self _ _)
        · rcases ih false c h with h2 | h2
          · exact Or.inl h2
          · exact Or.inr (List.mem_cons_of_mem _ h2)

theorem mem_pyStrip {l : List Nat} {c : Nat} (h : c ∈ pyStrip l) : c ∈ l := by
  unfold pyStrip at h
  rw [List.mem_reverse] at h
  have h2 := List.dropWhile_subset _ h
  rw [List.mem_reverse] at h2
  exact List.dropWhile_subset _ h2

theorem mem_pySplitAux :
    ∀ (l acc w : List Nat), w ∈ pySplitAux acc l → ∀ c ∈ w, c ∈ acc ∨ c ∈ l := by
  intro l
  induction l with
  | nil =>
      intro acc w hw c hc
      by_cases ha : acc = []
      · simp [pySplitAux, ha] at hw
      · simp only [pySplitAux, if_neg ha] at hw
        rcases List.mem_cons.1 hw with h | h
        · exact Or.inl (h ▸ hc)
        · simp at h
  | cons d ds ih =>
      intro acc w hw c hc
      by_cases hd : isSpaceC d = true
      · by_cases ha : acc = []
        · simp only [pySplitAux, hd, if_true, if_pos ha] at hw
          rcases ih [] w hw c hc with h | h
          · simp at h
          · exact Or.inr (List.mem_cons_of_mem _ h)
        · simp only [pySplitAux, hd, if_true, if_neg ha] at hw
          rcases List.mem_cons.1 hw with h | h
          · exact Or.inl (h ▸ hc)
          · rcases ih [] w h c hc with h2 | h2
            · simp at h2
            · exact Or.inr (List.mem_cons_of_mem _ h2)
      · rw [Bool.not_eq_true] at hd
        simp only [pySplitAux, hd, Bool.false_eq_true, if_false] at hw
        rcases ih (acc ++ [d]) w hw c hc with h | h
        · rcases List.mem_append.1 h with h2 | h2
          · exact Or.inl h2
          · exact Or.inr (by simpa using Or.inl (by simpa using h2))
        · exact Or.inr (List.mem_cons_of_mem _ h)

theorem mem_pyCapitalize {w : List Nat} {c : Nat} (h : c ∈ pyCapitalize w) :
    ∃ d ∈ w, c = upperC d ∨ c = lowerC d := by
  cases w with
  | nil => cases h
  | cons a as =>
      rcases List.mem_cons.1 h with h1 | h1
      · exact ⟨a, List.mem_cons_self _ _, Or.inl h1⟩
      · rcases List.mem_map.1 h1 with ⟨d, hd, hde⟩
        exact ⟨d, List.mem_cons_of_mem _ hd, Or.inr hde.symm⟩

theorem mem_joinSpace :
    ∀ (W : List (List Nat)) (c : Nat), c ∈ joinSpace W → c = 32 ∨ ∃ w ∈ W, c ∈ w := by
  intro W
  induction W with
  | nil => intro c hc; cases hc
  | cons w ws ih =>
      intro c hc
      cases ws with
      | nil => exact Or.inr ⟨w, List.mem_cons_self _ _, hc⟩
      | cons w2 ws' =>
          rw [show joinSpace (w :: w2 :: ws') = w ++ 32 :: joinSpace (w2 :: ws') from rfl]
            at hc
          rcases List.mem_append.1 hc with h | h
          · exact Or.inr ⟨w, List.mem_cons_self _ _, h⟩
          · rcases List.mem_cons.1 h with h2 | h2
            · exact Or.inl h2
            · rcases ih c h2 with h3 | ⟨w3, hw3, hcw3⟩
              · exact Or.inl h3
              · exact Or.inr ⟨w3, List.mem_cons_of_mem _ hw3, hcw3⟩

theorem clean_no_digit (s : List Nat) : ∀ c ∈ clean_food_name s, isDigitC c = false := by
  intro c hc
  rcases mem_joinSpace _ c hc with h32 | ⟨w, hw, hcw⟩
  · subst h32; decide
  · rcases List.mem_map.1 hw with ⟨w0, hw0, hwc⟩
    subst hwc
    rcases mem_pyCapitalize hcw with ⟨d, hd, hcd⟩
    have hd3 : d ∈ pyStrip (collapseSpaces (removeStopwords (stripNumbers s))) := by
      rcases mem_pySplitAux _ [] w0 hw0 d hd with h | h
      · simp at h
      · exact h
    have hd4 := mem_pyStrip hd3
    rcases mem_collapseSpacesAux _ false d hd4 with h32' | hd5
    · subst h32'
      rcases hcd with rfl | rfl
      · decide
      · decide
    · have hd6 := mem_removeStopAux _ 0 false d hd5
      have hd7 : isDigitC d = false := stripNumbersAux_no_digit _ .norm d hd6
      rcases hcd with rfl | rfl
      · rw [isDigitC_upperC]; exact hd7
      · rw [isDigitC_lowerC]; exact hd7

/-! ## The cleaner's output is a space-join of nonempty space-free words -/

theorem pySplitAux_words_ok :
    ∀ (l acc : List Nat), (∀ c ∈ acc, isSpaceC c = false) →
      ∀ w ∈ pySplitAux acc l, w ≠ [] ∧ ∀ c ∈ w, isSpaceC c = false := by
  intro l
  induction l with
  | nil =>
      intro acc hacc w hw
      by_cases ha : acc = []
      · simp [pySplitAux, ha] at hw
      · simp only [pySplitAux, if_neg ha] at hw
        rcases List.mem_cons.1 hw with rfl | h
        · exact ⟨ha, hacc⟩
        · simp at h
  | cons d ds ih =>
      intro acc hacc w hw
      by_cases hd : isSpaceC d = true
      · by_cases ha : acc = []
        · simp only [pySplitAux, hd, if_true, if_pos ha] at hw
          exact ih [] (by simp) w hw
        · simp only [pySplitAux, hd, if_true, if_neg ha] at hw
          rcases List.mem_cons.1 hw with rfl | h
          · exact ⟨ha, hacc⟩
          · exact ih [] (by simp) w h
      · rw [Bool.not_eq_true] at hd
        simp only [pySplitAux, hd, Bool.false_eq_true, if_false] at hw
        refine ih (acc ++ [d]) ?_ w hw
        intro c hc
        rcases List.mem_append.1 hc with h | h
        · exact hacc c h
        · rw [List.mem_singleton] at h
          exact h ▸ hd

theorem capitalize_ok {w : List Nat} (hne : w ≠ []) (hsp : ∀ c ∈ w, isSpaceC c = false) :
    pyCapitalize w ≠ [] ∧ ∀ c ∈ pyCapitalize w, isSpaceC c = false := by
  cases w with
  | nil => exact absurd rfl hne
  | cons a as =>
      constructor
      · simp [pyCapitalize]
      · intro c hc
        rcases List.mem_cons.1 hc with rfl | h
        · rw [isSpaceC_upperC]
          exact hsp a (List.mem_cons_self _ _)
        · rcases List.mem_map.1 h with ⟨d, hd, rfl⟩
          rw [isSpaceC_lowerC]
          exact hsp d (List.mem_cons_of_mem _ hd)

/-! ## Collapse, strip, split and capitalize are identities on such joins -/

theorem collapse_append_nonspace :
    ∀ (a r : List Nat), (∀ c ∈ a, isSpaceC c = false) →
      collapseSpacesAux false (a ++ r) = a ++ collapseSpacesAux false r := by
  intro a
  induction a with
  | nil => intro r _; rfl
  | cons c a' ih =>
      intro r h
      have hc : isSpaceC c = false := h c (List.mem_cons_self _ _)
      show collapseSpacesAux false (c :: (a' ++ r)) = c :: (a' ++ collapseSpacesAux false r)
      simp only [collapseSpacesAux, hc, Bool.false_eq_true, if_false]
      exact congrArg (c :: ·) (ih r fun x hx => h x (List.mem_cons_of_mem _ hx))

theorem collapse_true_eq_false_of_head (l : List Nat)
    (h : l = [] ∨ ∃ c t, l = c :: t ∧ isSpaceC c = false) :
    collapseSpacesAux true l = collapseSpacesAux false l := by
  rcases h with rfl | ⟨c, t, rfl, hc⟩
  · rfl
  · simp [collapseSpacesAux, hc]

theorem joinSpace_ne_nil {w : List Nat} (ws : List (List Nat)) (h : w ≠ []) :
    joinSpace (w :: ws) ≠ [] := by
  cases ws with
  | nil => exact h
  | cons w2 ws' =>
      rw [show joinSpace (w :: w2 :: ws') = w ++ 32 :: joinSpace (w2 :: ws') from rfl]
      simp

theorem joinSpace_head (W : List (List Nat))
    (hW : ∀ w ∈ W, w ≠ [] ∧ ∀ c ∈ w, isSpaceC c = false) :
    joinSpace W = [] ∨ ∃ c t, joinSpace W = c :: t ∧ isSpaceC c = false := by
  cases W with
  | nil => exact Or.inl rfl
  | cons w ws =>
      obtain ⟨hne, hsp⟩ := hW w (List.mem_cons_self _ _)
      cases w with
      | nil => exact absurd rfl hne
      | cons a w' =>
          right
          cases ws with
          | nil => exact ⟨a, w', rfl, hsp a (List.mem_cons_self _ _)⟩
          | cons w2 ws' =>
              exact ⟨a, w' ++ 32 :: joinSpace (w2 :: ws'), rfl,
                hsp a (List.mem_cons_self _ _)⟩

theorem joinSpace_reverse_head :
    ∀ (W : List (List Nat)), (∀ w ∈ W, w ≠ [] ∧ ∀ c ∈ w, isSpaceC c = false) →
      (joinSpace W).reverse = [] ∨
        ∃ c t, (joinSpace W).reverse = c :: t ∧ isSpaceC c = false := by
  intro W
  induction W with
  | nil => intro _; exact Or.inl rfl
  | cons w ws ih =>
      intro hW
      obtain ⟨hne, hsp⟩ := hW w (List.mem_cons_self _ _)
      have hsub : ∀ v ∈ ws, v ≠ [] ∧ ∀ c ∈ v, isSpaceC c = false :=
        fun v hv => hW v (List.mem_cons_of_mem _ hv)
      cases ws with
      | nil =>
          right
          cases hrev : w.reverse with
          | nil => exact absurd (List.reverse_eq_nil_iff.1 hrev) hne
          | cons c t =>
              refine ⟨c, t, hrev, hsp c ?_⟩
              rw [← List.mem_reverse, hrev]
              exact List.mem_cons_self _ _
      | cons w2 ws' =>
          rcases ih hsub with h0 | ⟨c, t, hct, hc⟩
          · exact absurd (List.reverse_eq_nil_iff.1 h0)
              (joinSpace_ne_nil _ (hsub w2 (List.mem_cons_self _ _)).1)
          · right
            refine ⟨c, t ++ 32 :: w.reverse, ?_, hc⟩
            rw [show joinSpace (w :: w2 :: ws') = w ++ 32 :: joinSpace (w2 :: ws') from rfl]
            rw [List.reverse_append, List.reverse_cons, hct]
            simp

theorem collapse_joinSpace :
    ∀ (W : List (List Nat)), (∀ w ∈ W, w ≠ [] ∧ ∀ c ∈ w, isSpaceC c = false) →
      collapseSpaces (joinSpace W) = joinSpace W := by
  intro W
  induction W with
  | nil => intro _; rfl
  | cons w ws ih =>
      intro hW
      obtain ⟨hne, hsp⟩ := hW w (List.mem_cons_self _ _)
      have hsub : ∀ v ∈ ws, v ≠ [] ∧ ∀ c ∈ v, isSpaceC c = false :=
        fun v hv => hW v (List.mem_cons_of_mem _ hv)
      cases ws with
      | nil =>
          show collapseSpacesAux false w = w
          have h := collapse_append_nonspace w [] hsp
          simpa [collapseSpacesAux] using h
      | cons w2 ws' =>
          show collapseSpacesAux false (joinSpace (w :: w2 :: ws')) =
            joinSpace (w :: w2 :: ws')
          rw [show joinSpace (w :: w2 :: ws') = w ++ 32 :: joinSpace (w2 :: ws') from rfl]
          rw [collapse_append_nonspace w _ hsp]
          congr 1
          rw [show collapseSpacesAux false (32 :: joinSpace (w2 :: ws')) =
              32 :: collapseSpacesAux true (joinSpace (w2 :: ws')) from by
            simp [collapseSpacesAux, show isSpaceC 32 = true from by decide]]
          congr 1
          rw [collapse_true_eq_false_of_head _ (joinSpace_head _ hsub)]
          exact ih hsub

theorem pyStrip_joinSpace (W : List (List Nat))
    (hW : ∀ w ∈ W, w ≠ [] ∧ ∀ c ∈ w, isSpaceC c = false) :
    pyStrip (joinSpace W) = joinSpace W := by
  unfold pyStrip
  have h1 : (joinSpace W).dropWhile isSpaceC = joinSpace W := by
    rcases joinSpace_head W hW with h0 | ⟨c, t, hct, hc⟩
    · rw [h0]; rfl
    · rw [hct]; simp [List.dropWhile_cons, hc]
  rw [h1]
  have h2 : (joinSpace W).reverse.dropWhile isSpaceC = (joinSpace W).reverse := by
    rcases joinSpace_reverse_head W hW with h0 | ⟨c, t, hct, hc⟩
    · rw [h0]; rfl
    · rw [hct]; simp [List.dropWhile_cons, hc]
  rw [h2, List.reverse_reverse]

theorem pySplitAux_word_lead :
    ∀ (w' acc r : List Nat), (∀ c ∈ w', isSpaceC c = false) →
      pySplitAux acc (w' ++ r) = pySplitAux (acc ++ w') r := by
  intro w'
  induction w' with
  | nil => intro acc r _; rw [List.nil_append, List.append_nil]
  | cons d w'' ih =>
      intro acc r h
      have hd : isSpaceC d = false := h d (List.mem_cons_self _ _)
      show pySplitAux acc (d :: (w'' ++ r)) = pySplitAux (acc ++ d :: w'') r
      rw [show pySplitAux acc (d :: (w'' ++ r)) = pySplitAux (acc ++ [d]) (w'' ++ r) from by
        simp [pySplitAux, hd]]
      rw [ih (acc ++ [d]) r fun c hc => h c (List.mem_cons_of_mem _ hc)]
      rw [List.append_assoc]
      rfl

theorem pySplit_joinSpace :
    ∀ (W : List (List Nat)), (∀ w ∈ W, w ≠ [] ∧ ∀ c ∈ w, isSpaceC c = false) →
      pySplit (joinSpace W) = W := by
  intro W
  induction W with
  | nil => intro _; rfl
  | cons w ws ih =>
      intro hW
      obtain ⟨hne, hsp⟩ := hW w (List.mem_cons_self _ _)
      have hsub : ∀ v ∈ ws, v ≠ [] ∧ ∀ c ∈ v, isSpaceC c = false :=
        fun v hv => hW v (List.mem_cons_of_mem _ hv)
      have h32 : isSpaceC 32 = true := by decide
      cases ws with
      | nil =>
          show pySplitAux [] w = [w]
          have h := pySplitAux_word_lead w [] [] hsp
          rw [List.append_nil, List.nil_append] at h
          rw [h]
          simp [pySplitAux, hne]
      | cons w2 ws' =>
          show pySplitAux [] (joinSpace (w :: w2 :: ws')) = w :: w2 :: ws'
          rw [show joinSpace (w :: w2 :: ws') = w ++ 32 :: joinSpace (w2 :: ws') from rfl]
          rw [pySplitAux_word_lead w [] _ hsp, List.nil_append]
          rw [show pySplitAux w (32 :: joinSpace (w2 :: ws')) =
              w :: pySplitAux [] (joinSpace (w2 :: ws')) from by
            simp [pySplitAux, h32, hne]]
          rw [show pySplitAux [] (joinSpace (w2 :: ws')) = pySplit (joinSpace (w2 :: ws'))
            from rfl]
          rw [ih hsub]

theorem pyCapitalize_idem (w : List Nat) : pyCapitalize (pyCapitalize w) = pyCapitalize w := by
  cases w with
  | nil => rfl
  | cons a as =>
      show pyCapitalize (upperC a :: as.map lowerC) = upperC a :: as.map lowerC
      simp only [pyCapitalize, upperC_upperC, List.map_map]
      congr 1
      exact List.map_congr_left fun x _ => lowerC_lowerC x

/-! ## The cleaner does not change the word runs up to case -/

theorem capitalize_runs_lower (w : List Nat) :
    (wordRuns (pyCapitalize w)).map (List.map lowerC) =
      (wordRuns w).map (List.map lowerC) := by
  rw [← wordRuns_map_lower, map_lower_capitalize, wordRuns_map_lower]

theorem flatten_runs_lower :
    ∀ (W : List (List Nat)),
      (((W.map pyCapitalize).map wordRuns).flatten).map (List.map lowerC) =
        ((W.map wordRuns).flatten).map (List.map lowerC) := by
  intro W
  induction W with
  | nil => rfl
  | cons w ws ih =>
      simp only [List.map_cons, List.flatten_cons, List.map_append]
      rw [capitalize_runs_lower w, ih]

theorem clean_runs_lower (s : List Nat) :
    (wordRuns (clean_food_name s)).map (List.map lowerC) =
      (wordRuns (removeStopwords (stripNumbers s))).map (List.map lowerC) := by
  show (wordRuns (joinSpace ((pySplit (pyStrip (collapseSpaces (removeStopwords
      (stripNumbers s))))).map pyCapitalize))).map (List.map lowerC) =
    (wordRuns (removeStopwords (stripNumbers s))).map (List.map lowerC)
  rw [wordRuns_joinSpace, flatten_runs_lower,
    pySplit_wordRuns (pyStrip (collapseSpaces (removeStopwords (stripNumbers s)))).length _
      le_rfl,
    wordRuns_pyStrip, wordRuns_collapse]

/-- C10: the name normalizer is idempotent — applying `clean_food_name` to its
own output returns the output unchanged, so already-normalized names pass
through normalization without modification. -/
theorem claim10_clean_idempotent (s : List Nat) :
    clean_food_name (clean_food_name s) = clean_food_name s := by
  have hWsat : ∀ w ∈ (pySplit (pyStrip (collapseSpaces (removeStopwords
      (stripNumbers s))))).map pyCapitalize, w ≠ [] ∧ ∀ c ∈ w, isSpaceC c = false := by
    intro w hw
    rcases List.mem_map.1 hw with ⟨w0, hw0, rfl⟩
    obtain ⟨h1', h2'⟩ := pySplitAux_words_ok _ [] (by simp) w0 hw0
    exact capitalize_ok h1' h2'
  have hout : clean_food_name s =
      joinSpace ((pySplit (pyStrip (collapseSpaces (removeStopwords
        (stripNumbers s))))).map pyCapitalize) := rfl
  have h1 : stripNumbers (clean_food_name s) = clean_food_name s :=
    stripNumbers_id _ (clean_no_digit s)
  have h2 : removeStopwords (clean_food_name s) = clean_food_name s := by
    show removeStopAux 0 false (clean_food_name s) = clean_food_name s
    refine removeStop_id (clean_food_name s).length _ le_rfl false ?_
    intro r hr hbad
    have hr' : r ∈ wordRuns (clean_food_name s) := hr
    have hrr : r.map lowerC ∈ (wordRuns (clean_food_name s)).map (List.map lowerC) :=
      List.mem_map_of_mem _ hr'
    rw [clean_runs_lower] at hrr
    rcases List.mem_map.1 hrr with ⟨r2, hr2, heq2⟩
    have hr2' : r2 ∈ runsFrom false (removeStopAux 0 false (stripNumbers s)) := hr2
    have hnb := removeStop_no_bad_runs (stripNumbers s).length (stripNumbers s) le_rfl
      false r2 hr2'
    rw [heq2] at hnb
    exact hnb hbad
  have h3 : collapseSpaces (clean_food_name s) = clean_food_name s := by
    rw [hout]
    exact collapse_joinSpace _ hWsat
  have h4 : pyStrip (clean_food_name s) = clean_food_name s := by
    rw [hout]
    exact pyStrip_joinSpace _ hWsat
  have h5 : pySplit (clean_food_name s) =
      (pySplit (pyStrip (collapseSpaces (removeStopwords (stripNumbers s))))).map
        pyCapitalize := by
    rw [hout]
    exact pySplit_joinSpace _ hWsat
  have h6 : ((pySplit (pyStrip (collapseSpaces (removeStopwords (stripNumbers s))))).map
      pyCapitalize).map pyCapitalize =
      (pySplit (pyStrip (collapseSpaces (removeStopwords (stripNumbers s))))).map
        pyCapitalize := by
    rw [List.map_map]
    exact List.map_congr_left fun w _ => pyCapitalize_idem w
  calc clean_food_name (clean_food_name s)
      = joinSpace ((pySplit (pyStrip (collapseSpaces (removeStopwords
          (stripNumbers (clean_food_name s)))))).map pyCapitalize) := rfl
    _ = joinSpace ((pySplit (clean_food_name s)).map pyCapitalize) := by
          rw [h1, h2, h3, h4]
    _ = clean_food_name s := by rw [h5, h6, ← hout]

end NutritionBot
